import Mathlib

/-
  Verification of the date-mirror plugin core (src/main.ts).

  Strings are modelled as `List Char`.  The format-to-pattern compiler,
  the matcher semantics of the produced patterns, JavaScript's
  `String.prototype.replace` substitution rules, and the Moment.js
  format / strict-parse behaviour for the Y/M/D token subset are all
  embedded as executable definitions below.
-/

set_option linter.unusedVariables false

namespace DateMirror

/-- Convert a Lean string literal to the `List Char` representation used
throughout this development. -/
def s2l (s : String) : List Char := s.data

/-- A calendar date (year, month, day), months and days 1-based. -/
structure CalendarDate where
  y : Nat
  m : Nat
  d : Nat
deriving DecidableEq, Repr

/-- Gregorian leap-year test. -/
def isLeap (y : Nat) : Bool :=
  y % 4 = 0 && (y % 100 != 0 || y % 400 = 0)

/-- Days in a month of a given year (Moment.js overflow check uses this). -/
def daysInMonth (y m : Nat) : Nat :=
  if m = 2 then (if isLeap y then 29 else 28)
  else if m = 4 || m = 6 || m = 9 || m = 11 then 30
  else 31

/-- A valid calendar date. -/
def validDate (dt : CalendarDate) : Prop :=
  1 ≤ dt.m ∧ dt.m ≤ 12 ∧ 1 ≤ dt.d ∧ dt.d ≤ daysInMonth dt.y dt.m

instance : DecidablePred validDate := fun dt => by
  unfold validDate; infer_instance

/-- The decimal digit character for `n < 10`. -/
def digitChar : Nat → Char
  | 0 => '0' | 1 => '1' | 2 => '2' | 3 => '3' | 4 => '4'
  | 5 => '5' | 6 => '6' | 7 => '7' | 8 => '8' | _ => '9'

/-- Fuelled decimal rendering (structural recursion so that the kernel
can evaluate it; the fuel is irrelevant once at least `n`). -/
def natCharsF : Nat → Nat → List Char
  | 0, _ => []
  | fuel + 1, n =>
    if n < 10 then [digitChar n]
    else natCharsF fuel (n / 10) ++ [digitChar (n % 10)]

/-- Decimal rendering of a natural number (no padding). -/
def natChars (n : Nat) : List Char := natCharsF (n + 1) n

/-- Zero-pad a decimal rendering on the left to width `w`
(longer renderings are kept unchanged, as Moment.js does). -/
def padNum (w n : Nat) : List Char :=
  List.replicate (w - (natChars n).length) '0' ++ natChars n

/-- Numeric value of a digit character. -/
def charVal (c : Char) : Nat := c.toNat - 48

/-- Value of a digit string (this is also the model of JavaScript's
`parseInt(s, 10)` on an all-digit string). -/
def chunkVal (cs : List Char) : Nat :=
  cs.foldl (fun a c => 10 * a + charVal c) 0

/-- A frontmatter value: the mixed primitive types that can be stored
under a YAML key and observed by the handlers. -/
inductive FmVal where
  | str (s : List Char)
  | num (n : Int)
  | boolean (b : Bool)
  | null
deriving DecidableEq, Repr

/-- JavaScript truthiness of a frontmatter value, as tested by
`if (cache?.frontmatter?.[this.settings.dateProperty])`. -/
def truthy : FmVal → Bool
  | .str s => s ≠ []
  | .num n => n ≠ 0
  | .boolean b => b
  | .null => false

/-- Frontmatter mapping: string-keyed association list. -/
def Frontmatter := List (List Char × FmVal)

instance : DecidableEq Frontmatter := by
  unfold Frontmatter; infer_instance

/-- Read the value stored under a key (`frontmatter[key]`). -/
def lookupFm (fm : Frontmatter) (k : List Char) : Option FmVal :=
  match fm with
  | [] => none
  | (k', v) :: r => if k' = k then some v else lookupFm r k

/-- Assign `frontmatter[key] = v` (overwrite in place, append if new). -/
def setFm (fm : Frontmatter) (k : List Char) (v : FmVal) : Frontmatter :=
  match fm with
  | [] => [(k, v)]
  | (k', v') :: r => if k' = k then (k, v) :: r else (k', v') :: setFm r k v

/-- Plugin settings (`DateMirrorSettings`). -/
structure Settings where
  dateProperty : List Char
  dateFormat : List Char
deriving DecidableEq, Repr

/-- `DEFAULT_SETTINGS` from src/main.ts: the sentinel property name
"DEFAULT" and the default format "YYYY-MM-DD". -/
def DEFAULT_SETTINGS : Settings :=
  ⟨s2l "DEFAULT", s2l "YYYY-MM-DD"⟩

/-! ## Format-to-pattern compiler (createDatePatternFromFormat) -/

/-- The characters escaped by `format.replace(/[.*+?^${}()|[\]\\]/g, '\\$&')`. -/
def isRegexSpecial (c : Char) : Bool :=
  c = '.' || c = '*' || c = '+' || c = '?' || c = '^' || c = '$' ||
  c = '\x7b' || c = '\x7d' ||
  c = '(' || c = ')' || c = '|' || c = '[' || c = ']' || c = '\\'

/-- Escape a single character for the pattern (prepend a backslash to
regex-special characters). -/
def escChar (c : Char) : List Char :=
  if isRegexSpecial c then ['\\', c] else [c]

/-- The escaping pass of the compiler. -/
def escapeRegex (s : List Char) : List Char := s.flatMap escChar

/-- Fuelled scanner for global replacement (structural so the kernel can
evaluate it; fuel is irrelevant once at least the input length). -/
def replaceListF (p : Char) (ps repl : List Char) : Nat → List Char → List Char
  | _, [] => []
  | 0, l => l
  | fuel + 1, c :: cs =>
    if (p :: ps).isPrefixOf (c :: cs) then
      repl ++ replaceListF p ps repl fuel (cs.drop ps.length)
    else
      c :: replaceListF p ps repl fuel cs

/-- JavaScript global plain-text replacement `s.replace(/pat/g, repl)` for
a non-empty pattern `p :: ps`: scan left to right, replace each
non-overlapping occurrence, and continue after the inserted replacement. -/
def replaceList (p : Char) (ps repl l : List Char) : List Char :=
  replaceListF p ps repl l.length l

/-- The pattern snippet `\d{4}`. -/
def d4pat : List Char := ['\\', 'd', '\x7b', '4', '\x7d']

/-- The pattern snippet `\d{2}`. -/
def d2pat : List Char := ['\\', 'd', '\x7b', '2', '\x7d']

/-- The pattern snippet `\d{1,2}`. -/
def d12pat : List Char := ['\\', 'd', '\x7b', '1', ',', '2', '\x7d']

/-- `createDatePatternFromFormat` from src/main.ts: escape regex-special
characters, then globally substitute the Moment.js tokens, in the source's
order YYYY, YY, MM, M, DD, D. -/
def createDatePatternFromFormat (format : List Char) : List Char :=
  replaceList 'D' [] d12pat
    (replaceList 'D' ['D'] d2pat
      (replaceList 'M' [] d12pat
        (replaceList 'M' ['M'] d2pat
          (replaceList 'Y' ['Y'] d2pat
            (replaceList 'Y' ['Y', 'Y', 'Y'] d4pat
              (escapeRegex format))))))

/-! ## Matcher semantics of the produced patterns

The compiler only ever produces patterns built from literal characters,
backslash-escaped literal characters, and the digit quantifier snippets
`\d{4}`, `\d{2}` and `\d{1,2}`.  `matchItems pat inp` decides whether the
pattern matches a prefix of `inp` (returning the number of characters
consumed), with JavaScript's greedy, backtracking semantics for `\d{1,2}`. -/

/-- An atom of the pattern language the compiler emits: an exact 4- or
2-digit matcher, a 1-2 digit matcher, or a literal character. -/
inductive PatItem where
  | D4 | D2 | D12
  | Lit (c : Char)
deriving DecidableEq, Repr

/-- Fuelled scanner reading a pattern string back into its atoms. -/
def patParseF : Nat → List Char → List PatItem
  | 0, _ => []
  | _ + 1, [] => []
  | fuel + 1, c :: ps =>
    if d4pat.isPrefixOf (c :: ps) then .D4 :: patParseF fuel ((c :: ps).drop 5)
    else if d2pat.isPrefixOf (c :: ps) then
      .D2 :: patParseF fuel ((c :: ps).drop 5)
    else if d12pat.isPrefixOf (c :: ps) then
      .D12 :: patParseF fuel ((c :: ps).drop 7)
    else if c = '\\' then
      match ps with
      | p2 :: ps2 => .Lit p2 :: patParseF fuel ps2
      | [] => [.Lit '\\']
    else .Lit c :: patParseF fuel ps

/-- Read a produced pattern string back into its atoms (the snippets
`\d\x7b4\x7d`, `\d\x7b2\x7d`, `\d\x7b1,2\x7d`, backslash-escaped
literals, and plain literal characters). -/
def patParse (s : List Char) : List PatItem := patParseF s.length s

/-- Anchored matching of a list of pattern atoms against a prefix of the
input, returning the number of characters consumed; `\d\x7b1,2\x7d` is
greedy with backtracking, as in a JavaScript regular expression. -/
def matchPI : List PatItem → List Char → Option Nat
  | [], _ => some 0
  | .D4 :: ps, inp =>
    if 4 ≤ inp.length ∧ (inp.take 4).all Char.isDigit then
      (matchPI ps (inp.drop 4)).map (· + 4)
    else none
  | .D2 :: ps, inp =>
    if 2 ≤ inp.length ∧ (inp.take 2).all Char.isDigit then
      (matchPI ps (inp.drop 2)).map (· + 2)
    else none
  | .D12 :: ps, inp =>
    (if 2 ≤ inp.length ∧ (inp.take 2).all Char.isDigit then
      (matchPI ps (inp.drop 2)).map (· + 2)
    else none).orElse (fun _ =>
      if 1 ≤ inp.length ∧ (inp.take 1).all Char.isDigit then
        (matchPI ps (inp.drop 1)).map (· + 1)
      else none)
  | .Lit c :: ps, inp =>
    match inp with
    | c2 :: r => if c2 = c then (matchPI ps r).map (· + 1) else none
    | [] => none

/-- Anchored matching of a produced pattern string at the start of the
input: the number of characters a JavaScript regular expression built
from the pattern would consume there. -/
def matchItems (pat inp : List Char) : Option Nat :=
  matchPI (patParse pat) inp

/-- Leftmost match search: the semantics of an unanchored JavaScript
regular expression, returning the start index and length of the first
match (preferring the greedy alternative at the first matching start
position, as `String.prototype.match` does). -/
def searchFrom (pat : List Char) : List Char → Option (Nat × Nat)
  | [] => (matchItems pat []).map (fun len => (0, len))
  | c :: r =>
    match matchItems pat (c :: r) with
    | some len => some (0, len)
    | none => (searchFrom pat r).map (fun q => (q.1 + 1, q.2))

/-- `RegExp.prototype.test`. -/
def testPat (pat s : List Char) : Bool := (searchFrom pat s).isSome

/-- Fuelled GetSubstitution scanner (fuel is irrelevant once at least
the replacement length). -/
def getSubstitutionF (matched before after : List Char) :
    Nat → List Char → List Char
  | 0, r => r
  | _ + 1, [] => []
  | fuel + 1, c :: r =>
    if c = '$' then
      match r with
      | [] => ['$']
      | c2 :: r2 =>
        if c2 = '$' then
          '$' :: getSubstitutionF matched before after fuel r2
        else if c2 = '&' then
          matched ++ getSubstitutionF matched before after fuel r2
        else if c2 = Char.ofNat 96 then
          before ++ getSubstitutionF matched before after fuel r2
        else if c2 = Char.ofNat 39 then
          after ++ getSubstitutionF matched before after fuel r2
        else '$' :: getSubstitutionF matched before after fuel (c2 :: r2)
    else c :: getSubstitutionF matched before after fuel r

/-- JavaScript's GetSubstitution for a replacement string, with no
capture groups in the pattern: `$$`, `$&`, backtick-`$` and quote-`$`
are special; `$` followed by anything else (including a capture-group
digit, since there are no groups) is kept as literal text. -/
def getSubstitution (matched before after repl : List Char) : List Char :=
  getSubstitutionF matched before after repl.length repl

/-- `s.replace(pat, repl)` for a non-global pattern: replace the first
match, performing GetSubstitution on the replacement; no match leaves
the string unchanged. -/
def replaceFirst (pat repl s : List Char) : List Char :=
  match searchFrom pat s with
  | none => s
  | some (st, len) =>
    s.take st ++
      getSubstitution ((s.drop st).take len) (s.take st) (s.drop (st + len))
        repl ++
      s.drop (st + len)

/-- `replaceDateInFilename` from src/main.ts. -/
def replaceDateInFilename (fmt filename newDate : List Char) : List Char :=
  let datePattern := createDatePatternFromFormat fmt
  if testPat datePattern filename then replaceFirst datePattern newDate filename
  else filename

/-! ## Moment.js model (Y/M/D token subset)

The plugin relies on Moment.js for rendering (`moment.format`) and strict
parsing (`moment(string, format, true)`).  Moment is an external library;
the definitions below model its documented behaviour for the token subset
the compiler understands (YYYY, YY, MM, M, DD, D) plus literal separator
characters.  Formats using other Moment tokens are outside this model. -/

/-- A format token of the modelled subset. -/
inductive FmtTok where
  | Y4 | Y2 | M2 | M1 | D2 | D1
  | L (c : Char)
deriving DecidableEq, Repr

/-- The characters of a token in the format string. -/
def tokChars : FmtTok → List Char
  | .Y4 => ['Y', 'Y', 'Y', 'Y']
  | .Y2 => ['Y', 'Y']
  | .M2 => ['M', 'M']
  | .M1 => ['M']
  | .D2 => ['D', 'D']
  | .D1 => ['D']
  | .L c => [c]

/-- Longest-token-first tokenization step, as Moment's format scanner
performs it on this token alphabet (YYYY before YY, MM before M, DD
before D; any other character is a literal). -/
def nextTok (s : List Char) : Option (FmtTok × List Char) :=
  match s with
  | [] => none
  | c :: rest =>
    if (tokChars .Y4).isPrefixOf s then some (.Y4, s.drop 4)
    else if (tokChars .Y2).isPrefixOf s then some (.Y2, s.drop 2)
    else if (tokChars .M2).isPrefixOf s then some (.M2, s.drop 2)
    else if (tokChars .M1).isPrefixOf s then some (.M1, s.drop 1)
    else if (tokChars .D2).isPrefixOf s then some (.D2, s.drop 2)
    else if (tokChars .D1).isPrefixOf s then some (.D1, s.drop 1)
    else some (.L c, rest)

/-- Fuelled token-list computation. -/
def toksF : Nat → List Char → List FmtTok
  | 0, _ => []
  | fuel + 1, s =>
    match nextTok s with
    | none => []
    | some (t, r) => t :: toksF fuel r

/-- The token list of a format string. -/
def toks (s : List Char) : List FmtTok := toksF s.length s

/-- Rendering of one token for a date (Moment's `format`). -/
def renderTok (dt : CalendarDate) : FmtTok → List Char
  | .Y4 => padNum 4 dt.y
  | .Y2 => padNum 2 (dt.y % 100)
  | .M2 => padNum 2 dt.m
  | .M1 => natChars dt.m
  | .D2 => padNum 2 dt.d
  | .D1 => natChars dt.d
  | .L c => [c]

/-- Fuelled format rendering. -/
def renderFmtF (dt : CalendarDate) : Nat → List Char → List Char
  | 0, _ => []
  | fuel + 1, s =>
    match nextTok s with
    | none => []
    | some (t, r) => renderTok dt t ++ renderFmtF dt fuel r

/-- Moment's `format`: render each token of the format string. -/
def renderFmt (dt : CalendarDate) (s : List Char) : List Char :=
  renderFmtF dt s.length s

/-- Fields recovered while parsing: year, month, day (each optional). -/
structure ParsedFields where
  py : Option Nat
  pm : Option Nat
  pd : Option Nat
deriving DecidableEq, Repr

/-- Moment's two-digit-year rule: values above 68 are 19xx, others 20xx. -/
def twoDigitYear (v : Nat) : Nat := if v ≤ 68 then 2000 + v else 1900 + v

/-- One strict-parse step per token.  Fixed-width tokens consume exactly
their digit count; 1-2 digit tokens consume greedily (two digits when
available) without backtracking; literal characters must match exactly.
Strict parsing fails on any leftover or mismatching input. -/
def parseStep (t : FmtTok) (inp : List Char) (acc : ParsedFields)
    (k : List Char → ParsedFields → Option ParsedFields) :
    Option ParsedFields :=
  match t with
  | .Y4 =>
    if 4 ≤ inp.length ∧ (inp.take 4).all Char.isDigit then
      k (inp.drop 4) ⟨some (chunkVal (inp.take 4)), acc.pm, acc.pd⟩
    else none
  | .Y2 =>
    if 2 ≤ inp.length ∧ (inp.take 2).all Char.isDigit then
      k (inp.drop 2) ⟨some (twoDigitYear (chunkVal (inp.take 2))), acc.pm, acc.pd⟩
    else none
  | .M2 =>
    if 2 ≤ inp.length ∧ (inp.take 2).all Char.isDigit then
      k (inp.drop 2) ⟨acc.py, some (chunkVal (inp.take 2)), acc.pd⟩
    else none
  | .M1 =>
    if 2 ≤ inp.length ∧ (inp.take 2).all Char.isDigit then
      k (inp.drop 2) ⟨acc.py, some (chunkVal (inp.take 2)), acc.pd⟩
    else if 1 ≤ inp.length ∧ (inp.take 1).all Char.isDigit then
      k (inp.drop 1) ⟨acc.py, some (chunkVal (inp.take 1)), acc.pd⟩
    else none
  | .D2 =>
    if 2 ≤ inp.length ∧ (inp.take 2).all Char.isDigit then
      k (inp.drop 2) ⟨acc.py, acc.pm, some (chunkVal (inp.take 2))⟩
    else none
  | .D1 =>
    if 2 ≤ inp.length ∧ (inp.take 2).all Char.isDigit then
      k (inp.drop 2) ⟨acc.py, acc.pm, some (chunkVal (inp.take 2))⟩
    else if 1 ≤ inp.length ∧ (inp.take 1).all Char.isDigit then
      k (inp.drop 1) ⟨acc.py, acc.pm, some (chunkVal (inp.take 1))⟩
    else none
  | .L c =>
    match inp with
    | c2 :: ir => if c2 = c then k ir acc else none
    | [] => none

/-- Fuelled strict-parse pass. -/
def parseRunF : Nat → List Char → List Char → ParsedFields →
    Option ParsedFields
  | 0, _, _, _ => none
  | fuel + 1, s, inp, acc =>
    match nextTok s with
    | none => if inp = [] then some acc else none
    | some (t, r) => parseStep t inp acc (parseRunF fuel r)

/-- Strict-parse pass over a whole format string. -/
def parseRun (s inp : List Char) (acc : ParsedFields) : Option ParsedFields :=
  parseRunF (s.length + 1) s inp acc

/-- Moment's unit defaulting: units above the most significant parsed
unit come from the current date, units below default to their minimum. -/
def completeFields (today : CalendarDate) (f : ParsedFields) : CalendarDate :=
  match f.py, f.pm, f.pd with
  | some y, m?, d? => ⟨y, m?.getD 1, d?.getD 1⟩
  | none, some m, d? => ⟨today.y, m, d?.getD 1⟩
  | none, none, some d => ⟨today.y, today.m, d⟩
  | none, none, none => ⟨today.y, today.m, today.d⟩

/-- Moment's overflow check: month 1-12 and day within the month. -/
def overflowCheck (dt : CalendarDate) : Option CalendarDate :=
  if validDate dt then some dt else none

/-- `window.moment(dateString, format, true)` followed by `isValid()`:
strict parse of `inp` against the format, `none` when invalid. -/
def momentStrictParse (today : CalendarDate) (inp fmt : List Char) :
    Option CalendarDate :=
  match parseRun fmt inp ⟨none, none, none⟩ with
  | none => none
  | some f => overflowCheck (completeFields today f)

/-- Partial model of Moment's permissive constructor `window.moment(x)`:
ISO `YYYY-MM-DD` strings are parsed to the corresponding date.  Other
inputs (non-ISO strings, numbers interpreted as epoch milliseconds, ...)
are outside the model and mapped to `none` (an invalid moment). -/
def momentPermissiveModel (v : FmVal) : Option CalendarDate :=
  match v with
  | .str s => momentStrictParse ⟨1970, 1, 1⟩ s (s2l "YYYY-MM-DD")
  | _ => none

/-! ## The plugin's date functions and event handlers -/

/-- `extractDateFromFilename` from src/main.ts: compile the configured
format, find the first pattern match in the filename, strictly parse
the matched substring, and return the date when valid. -/
def extractDateFromFilename (today : CalendarDate) (fmt filename : List Char) :
    Option CalendarDate :=
  let datePattern := createDatePatternFromFormat fmt
  match searchFrom datePattern filename with
  | some (st, len) =>
    momentStrictParse today ((filename.drop st).take len) fmt
  | none => none

/-- `formatFrontmatterDate` from src/main.ts: render the date in the
configured format; an all-digit rendering is converted with
`parseInt(output, 10)` to a number, otherwise the string is returned. -/
def formatFrontmatterDate (fmt : List Char) (dt : CalendarDate) : FmVal :=
  let output := renderFmt dt fmt
  if output ≠ [] ∧ output.all Char.isDigit then .num (chunkVal output)
  else .str output

/-- The string `window.moment(date).format(fmt)` computed inside
`updateFilename`: a permissive parse of the raw frontmatter value
(`mparse` is the moment constructor model) rendered in the configured
format; an invalid moment renders as "Invalid date". -/
def formattedOf (mparse : FmVal → Option CalendarDate) (fmt : List Char)
    (v : FmVal) : List Char :=
  match mparse v with
  | some dt => renderFmt dt fmt
  | none => s2l "Invalid date"

/-- `updateFilename` from src/main.ts, on the frontmatter-changed event:
returns the new basename when a rename is requested, `none` otherwise. -/
def updateFilename (st : Settings) (mparse : FmVal → Option CalendarDate)
    (fm : Frontmatter) (basename : List Char) : Option (List Char) :=
  match lookupFm fm st.dateProperty with
  | none => none
  | some v =>
    if truthy v then
      let formattedDate := formattedOf mparse st.dateFormat v
      let newName := replaceDateInFilename st.dateFormat basename formattedDate
      if newName = basename then none else some newName
    else none

/-- `updateFrontmatter` from src/main.ts, on the rename event: extract a
date from the new basename and write it under the configured property
when it differs from the stored value; returns the updated mapping. -/
def updateFrontmatter (st : Settings) (today : CalendarDate)
    (fm : Frontmatter) (basename : List Char) : Frontmatter :=
  match extractDateFromFilename today st.dateFormat basename with
  | none => fm
  | some dt =>
    let newDate := formatFrontmatterDate st.dateFormat dt
    if lookupFm fm st.dateProperty ≠ some newDate then
      setFm fm st.dateProperty newDate
    else fm

/-- One settled round of the orchestrator: the frontmatter-changed
handler runs, and when it renames the file, the rename handler runs on
the renamed file.  Returns the resulting frontmatter mapping. -/
def fmSyncRound (st : Settings) (mparse : FmVal → Option CalendarDate)
    (today : CalendarDate) (fm : Frontmatter) (basename : List Char) :
    Frontmatter :=
  match updateFilename st mparse fm basename with
  | some newBase => updateFrontmatter st today fm newBase
  | none => fm

/-! ## Structural compiler (the specification's reading of 4.1) -/

/-- The pattern snippet of one token. -/
def patTok : FmtTok → List Char
  | .Y4 => d4pat
  | .Y2 => d2pat
  | .M2 => d2pat
  | .M1 => d12pat
  | .D2 => d2pat
  | .D1 => d12pat
  | .L c => escChar c

/-- Fuelled structural compilation. -/
def patOfFmtF : Nat → List Char → List Char
  | 0, _ => []
  | fuel + 1, s =>
    match nextTok s with
    | none => []
    | some (t, r) => patTok t ++ patOfFmtF fuel r

/-- Structural compilation: tokenize the format longest-token-first and
substitute each token's matcher snippet, escaping literal characters. -/
def patOfFmt (s : List Char) : List Char := patOfFmtF s.length s

/-! ## Format classes used by the round-trip results -/

/-- Tokens denoting a year. -/
def isYTok : FmtTok → Bool
  | .Y4 | .Y2 => true
  | _ => false

/-- Tokens denoting a month. -/
def isMTok : FmtTok → Bool
  | .M2 | .M1 => true
  | _ => false

/-- Tokens denoting a day. -/
def isDTok : FmtTok → Bool
  | .D2 | .D1 => true
  | _ => false

/-- Variable-width (1-2 digit) tokens. -/
def isVarTok : FmtTok → Bool
  | .M1 | .D1 => true
  | _ => false

/-- Whether a token's rendering can begin with a digit. -/
def digitStart : FmtTok → Bool
  | .L c => c.isDigit
  | _ => true

/-- Admissible literal separator characters: not a digit (so adjacent
digit runs stay unambiguous), not a letter (so the character is not some
other Moment token outside the modelled subset) and not one of Moment's
literal-escape brackets. -/
def litOK (c : Char) : Bool :=
  !c.isDigit && !c.isAlpha && c ≠ '[' && c ≠ ']'

/-- All literal tokens of a token list are admissible separators. -/
def toksLitOK (ts : List FmtTok) : Bool :=
  ts.all fun t =>
    match t with
    | .L c => litOK c
    | _ => true

/-- No 1-2 digit token is immediately followed by an element whose
rendering can begin with a digit. -/
def sepOK : List FmtTok → Bool
  | [] => true
  | [_] => true
  | t :: u :: rest => (!(isVarTok t) || !(digitStart u)) && sepOK (u :: rest)

/-- Exactly one year token, one month token and one day token. -/
def oneEach (ts : List FmtTok) : Bool :=
  ts.countP (fun t => isYTok t) = 1 && ts.countP (fun t => isMTok t) = 1 &&
  ts.countP (fun t => isDTok t) = 1

/-- The format class of the amended round-trip property: admissible
literals, unambiguous digit runs, one token per date field. -/
def goodFmt (s : List Char) : Prop :=
  toksLitOK (toks s) ∧ sepOK (toks s) ∧ oneEach (toks s)

instance : DecidablePred goodFmt := fun s => by
  unfold goodFmt; infer_instance

/-- A fixed-width format: like `goodFmt` but with no 1-2 digit tokens
and no `$` literal (so the rendering is substitution-safe in a
JavaScript replacement string). -/
def rigidFmt (s : List Char) : Prop :=
  toksLitOK (toks s) ∧ (toks s).all (fun t => !(isVarTok t)) ∧
  oneEach (toks s) ∧
  (toks s).all fun t =>
    match t with
    | .L c => c ≠ '$'
    | _ => true

instance : DecidablePred rigidFmt := fun s => by
  unfold rigidFmt; infer_instance

/-- Year values expressible by the year token of a format: 4-digit years
must fit in four digits, 2-digit years must lie in Moment's two-digit
window 1969-2068. -/
def yearOK (ts : List FmtTok) (y : Nat) : Prop :=
  (FmtTok.Y4 ∈ ts → y ≤ 9999) ∧ (FmtTok.Y2 ∈ ts → 1969 ≤ y ∧ y ≤ 2068)

instance : ∀ ts y, Decidable (yearOK ts y) := fun ts y => by
  unfold yearOK; infer_instance

/-- The pattern atom a single token compiles to. -/
def itemOfTok : FmtTok → PatItem
  | .Y4 => .D4
  | .Y2 => .D2
  | .M2 => .D2
  | .D2 => .D2
  | .M1 => .D12
  | .D1 => .D12
  | .L c => .Lit c

/-- The atom list of a token list. -/
def itemsOfToks (ts : List FmtTok) : List PatItem := ts.map itemOfTok

/-- The field assignment performed by one token when strict-parsing the
rendering of `dt` (used to describe `parseRun` on rendered output). -/
def applyTok (dt : CalendarDate) (acc : ParsedFields) : FmtTok → ParsedFields
  | .Y4 => ⟨some dt.y, acc.pm, acc.pd⟩
  | .Y2 => ⟨some (twoDigitYear (dt.y % 100)), acc.pm, acc.pd⟩
  | .M2 => ⟨acc.py, some dt.m, acc.pd⟩
  | .M1 => ⟨acc.py, some dt.m, acc.pd⟩
  | .D2 => ⟨acc.py, acc.pm, some dt.d⟩
  | .D1 => ⟨acc.py, acc.pm, some dt.d⟩
  | .L _ => acc

/-- Folding the field assignments of a token list. -/
def applyToks (dt : CalendarDate) : List FmtTok → ParsedFields → ParsedFields
  | [], acc => acc
  | t :: ts, acc => applyToks dt ts (applyTok dt acc t)

/-- Rendering of a token list (the rendering of a format string is the
concatenation of its tokens' renderings). -/
def rendersToks (dt : CalendarDate) : List FmtTok → List Char
  | [] => []
  | t :: ts => renderTok dt t ++ rendersToks dt ts

/-- Character shape equivalence: both digits, or the same character
(used to transfer pattern matches between a matched substring and its
replacement under fixed-width patterns). -/
def shapeEqChar (c1 c2 : Char) : Bool :=
  (c1.isDigit == c2.isDigit) && (c1.isDigit || c1 == c2)

/-- Pointwise shape equivalence of equal-length strings. -/
def shapeEq : List Char → List Char → Bool
  | [], [] => true
  | c1 :: r1, c2 :: r2 => shapeEqChar c1 c2 && shapeEq r1 r2
  | _, _ => false

/-- Fixed-width pattern atoms: no 1-2-digit matcher, and literal atoms
are non-digit characters. -/
def rigidItems (ps : List PatItem) : Bool :=
  ps.all fun i =>
    match i with
    | .D12 => false
    | .Lit c => !c.isDigit
    | _ => true

/-! ## Unfolding equations for the fuelled definitions -/

theorem nextTok_length {s : List Char} {t : FmtTok} {r : List Char}
    (h : nextTok s = some (t, r)) : r.length < s.length := by
  match s with
  | [] => simp [nextTok] at h
  | c :: rest =>
    simp only [nextTok] at h
    split at h
    · cases h; simp [List.length_drop]; try omega
    · split at h
      · cases h; simp [List.length_drop]; try omega
      · split at h
        · cases h; simp [List.length_drop]; try omega
        · split at h
          · cases h; simp [List.length_drop]; try omega
          · split at h
            · cases h; simp [List.length_drop]; try omega
            · split at h
              · cases h; simp [List.length_drop]; try omega
              · cases h; simp

theorem natCharsF_irrel : ∀ (f g n : Nat), n < f → n < g →
    natCharsF f n = natCharsF g n := by
  intro f
  induction f with
  | zero => intro g n hf; omega
  | succ f ih =>
    intro g n hf hg
    match g with
    | 0 => omega
    | g + 1 =>
      simp only [natCharsF]
      by_cases h10 : n < 10
      · simp [h10]
      · have hdiv : n / 10 < n := Nat.div_lt_self (by omega) (by omega)
        simp only [h10, if_false]
        rw [ih g (n / 10) (by omega) (by omega)]

theorem natChars_unfold (n : Nat) : natChars n =
    if n < 10 then [digitChar n]
    else natChars (n / 10) ++ [digitChar (n % 10)] := by
  show natCharsF (n + 1) n = _
  simp only [natCharsF]
  by_cases h10 : n < 10
  · simp [h10]
  · have hdiv : n / 10 < n := Nat.div_lt_self (by omega) (by omega)
    simp only [h10, if_false]
    rw [natCharsF_irrel n (n / 10 + 1) (n / 10) (by omega) (by omega)]
    rfl

theorem replaceListF_irrel (p : Char) (ps repl : List Char) :
    ∀ (f g : Nat) (l : List Char), l.length ≤ f → l.length ≤ g →
    replaceListF p ps repl f l = replaceListF p ps repl g l := by
  intro f
  induction f with
  | zero =>
    intro g l hf hg
    match l with
    | [] =>
      match g with
      | 0 => rfl
      | g + 1 => rfl
    | c :: cs => simp at hf
  | succ f ih =>
    intro g l hf hg
    match l with
    | [] =>
      match g with
      | 0 => rfl
      | g + 1 => rfl
    | c :: cs =>
      match g with
      | 0 => simp at hg
      | g + 1 =>
        simp only [replaceListF]
        cases hp : (p :: ps).isPrefixOf (c :: cs) with
        | true =>
          simp only [if_true]
          rw [ih g (cs.drop ps.length)
            (by simp [List.length_drop] at hf ⊢; omega)
            (by simp [List.length_drop] at hg ⊢; omega)]
        | false =>
          simp only [Bool.false_eq_true, if_false]
          rw [ih g cs (by simp at hf; omega) (by simp at hg; omega)]

theorem replaceList_nil (p : Char) (ps repl : List Char) :
    replaceList p ps repl [] = [] := rfl

theorem replaceList_cons (p : Char) (ps repl : List Char) (c : Char)
    (cs : List Char) :
    replaceList p ps repl (c :: cs) =
      if (p :: ps).isPrefixOf (c :: cs) then
        repl ++ replaceList p ps repl (cs.drop ps.length)
      else c :: replaceList p ps repl cs := by
  show replaceListF p ps repl (cs.length + 1) (c :: cs) = _
  simp only [replaceListF]
  cases hp : (p :: ps).isPrefixOf (c :: cs) with
  | true =>
    simp only [if_true]
    rw [replaceListF_irrel p ps repl cs.length (cs.drop ps.length).length
      (cs.drop ps.length) (by simp only [List.length_drop]; omega) le_rfl]
    rfl
  | false => simp only [Bool.false_eq_true, if_false]; rfl

/-- Induction over a format string by its token decomposition. -/
theorem fmtRec (P : List Char → Prop)
    (h0 : ∀ s, nextTok s = none → P s)
    (h1 : ∀ s t r, nextTok s = some (t, r) → P r → P s) : ∀ s, P s := by
  have key : ∀ n s, s.length ≤ n → P s := by
    intro n
    induction n with
    | zero =>
      intro s hs
      match s with
      | [] => exact h0 [] rfl
      | c :: r => simp at hs
    | succ n ih =>
      intro s hs
      match h : nextTok s with
      | none => exact h0 s h
      | some (t, r) =>
        exact h1 s t r h (ih r (by have := nextTok_length h; omega))
  exact fun s => key s.length s le_rfl

theorem toksF_irrel : ∀ (f g : Nat) (s : List Char), s.length ≤ f →
    s.length ≤ g → toksF f s = toksF g s := by
  intro f
  induction f with
  | zero =>
    intro g s hf hg
    match s with
    | [] =>
      match g with
      | 0 => rfl
      | g + 1 => simp [toksF, nextTok]
    | c :: r => simp at hf
  | succ f ih =>
    intro g s hf hg
    match g with
    | 0 =>
      match s with
      | [] => simp [toksF, nextTok]
      | c :: r => simp at hg
    | g + 1 =>
      simp only [toksF]
      match h : nextTok s with
      | none => rfl
      | some (t, r) =>
        have := nextTok_length h
        dsimp only
        rw [ih g r (by omega) (by omega)]

theorem toks_none {s : List Char} (h : nextTok s = none) : toks s = [] := by
  show toksF s.length s = []
  match s with
  | [] => rfl
  | c :: r => simp [List.length_cons, toksF, h]

theorem toks_some {s : List Char} {t : FmtTok} {r : List Char}
    (h : nextTok s = some (t, r)) : toks s = t :: toks r := by
  show toksF s.length s = _
  have hl := nextTok_length h
  match s, hl with
  | c :: s', hl2 =>
    simp only [List.length_cons, toksF, h]
    rw [toksF_irrel s'.length r.length r
      (by simp only [List.length_cons] at hl2; omega) le_rfl]
    rfl

theorem renderFmtF_irrel (dt : CalendarDate) : ∀ (f g : Nat) (s : List Char),
    s.length ≤ f → s.length ≤ g → renderFmtF dt f s = renderFmtF dt g s := by
  intro f
  induction f with
  | zero =>
    intro g s hf hg
    match s with
    | [] =>
      match g with
      | 0 => rfl
      | g + 1 => simp [renderFmtF, nextTok]
    | c :: r => simp at hf
  | succ f ih =>
    intro g s hf hg
    match g with
    | 0 =>
      match s with
      | [] => simp [renderFmtF, nextTok]
      | c :: r => simp at hg
    | g + 1 =>
      simp only [renderFmtF]
      match h : nextTok s with
      | none => rfl
      | some (t, r) =>
        have := nextTok_length h
        dsimp only
        rw [ih g r (by omega) (by omega)]

theorem renderFmt_none {dt : CalendarDate} {s : List Char}
    (h : nextTok s = none) : renderFmt dt s = [] := by
  show renderFmtF dt s.length s = []
  match s with
  | [] => rfl
  | c :: r => simp [List.length_cons, renderFmtF, h]

theorem renderFmt_some {dt : CalendarDate} {s : List Char} {t : FmtTok}
    {r : List Char} (h : nextTok s = some (t, r)) :
    renderFmt dt s = renderTok dt t ++ renderFmt dt r := by
  show renderFmtF dt s.length s = _
  have hl := nextTok_length h
  match s, hl with
  | c :: s', hl2 =>
    simp only [List.length_cons, renderFmtF, h]
    rw [renderFmtF_irrel dt s'.length r.length r
      (by simp only [List.length_cons] at hl2; omega) le_rfl]
    rfl

theorem patOfFmtF_irrel : ∀ (f g : Nat) (s : List Char), s.length ≤ f →
    s.length ≤ g → patOfFmtF f s = patOfFmtF g s := by
  intro f
  induction f with
  | zero =>
    intro g s hf hg
    match s with
    | [] =>
      match g with
      | 0 => rfl
      | g + 1 => simp [patOfFmtF, nextTok]
    | c :: r => simp at hf
  | succ f ih =>
    intro g s hf hg
    match g with
    | 0 =>
      match s with
      | [] => simp [patOfFmtF, nextTok]
      | c :: r => simp at hg
    | g + 1 =>
      simp only [patOfFmtF]
      match h : nextTok s with
      | none => rfl
      | some (t, r) =>
        have := nextTok_length h
        dsimp only
        rw [ih g r (by omega) (by omega)]

theorem patOfFmt_none {s : List Char} (h : nextTok s = none) :
    patOfFmt s = [] := by
  show patOfFmtF s.length s = []
  match s with
  | [] => rfl
  | c :: r => simp [List.length_cons, patOfFmtF, h]

theorem patOfFmt_some {s : List Char} {t : FmtTok} {r : List Char}
    (h : nextTok s = some (t, r)) : patOfFmt s = patTok t ++ patOfFmt r := by
  show patOfFmtF s.length s = _
  have hl := nextTok_length h
  match s, hl with
  | c :: s', hl2 =>
    simp only [List.length_cons, patOfFmtF, h]
    rw [patOfFmtF_irrel s'.length r.length r
      (by simp only [List.length_cons] at hl2; omega) le_rfl]
    rfl

theorem parseRunF_irrel : ∀ (f g : Nat) (s inp : List Char)
    (acc : ParsedFields), s.length < f → s.length < g →
    parseRunF f s inp acc = parseRunF g s inp acc := by
  intro f
  induction f with
  | zero => intro g s inp acc hf; omega
  | succ f ih =>
    intro g s inp acc hf hg
    match g with
    | 0 => omega
    | g + 1 =>
      simp only [parseRunF]
      match h : nextTok s with
      | none => rfl
      | some (t, r) =>
        have := nextTok_length h
        have hrec : parseRunF f r = parseRunF g r := by
          funext i a
          exact ih g r i a (by omega) (by omega)
        dsimp only
        rw [hrec]

theorem parseRun_none {s : List Char} (h : nextTok s = none)
    (inp : List Char) (acc : ParsedFields) :
    parseRun s inp acc = if inp = [] then some acc else none := by
  show parseRunF (s.length + 1) s inp acc = _
  simp [parseRunF, h]

theorem parseRun_some {s : List Char} {t : FmtTok} {r : List Char}
    (h : nextTok s = some (t, r)) (inp : List Char) (acc : ParsedFields) :
    parseRun s inp acc = parseStep t inp acc (parseRun r) := by
  show parseRunF (s.length + 1) s inp acc = _
  have hl := nextTok_length h
  simp only [parseRunF, h]
  have hrec : parseRunF s.length r = parseRunF (r.length + 1) r := by
    funext i a
    exact parseRunF_irrel s.length (r.length + 1) r i a (by omega) (by omega)
  rw [hrec]
  rfl

theorem patParseF_irrel : ∀ (f g : Nat) (s : List Char), s.length ≤ f →
    s.length ≤ g → patParseF f s = patParseF g s := by
  intro f
  induction f with
  | zero =>
    intro g s hf hg
    match s with
    | [] =>
      match g with
      | 0 => rfl
      | g + 1 => rfl
    | c :: ps => simp at hf
  | succ f ih =>
    intro g s hf hg
    match s with
    | [] =>
      match g with
      | 0 => rfl
      | g + 1 => rfl
    | c :: ps =>
      match g with
      | 0 => simp at hg
      | g + 1 =>
        simp only [patParseF]
        have hlen : ps.length + 1 ≤ f + 1 := by simpa using hf
        have hleng : ps.length + 1 ≤ g + 1 := by simpa using hg
        by_cases h4 : d4pat.isPrefixOf (c :: ps) = true
        · rw [if_pos h4, if_pos h4,
            ih g ((c :: ps).drop 5)
              (by simp only [List.length_drop, List.length_cons]; omega)
              (by simp only [List.length_drop, List.length_cons]; omega)]
        · rw [if_neg h4, if_neg h4]
          by_cases h2 : d2pat.isPrefixOf (c :: ps) = true
          · rw [if_pos h2, if_pos h2,
              ih g ((c :: ps).drop 5)
                (by simp only [List.length_drop, List.length_cons]; omega)
                (by simp only [List.length_drop, List.length_cons]; omega)]
          · rw [if_neg h2, if_neg h2]
            by_cases h12 : d12pat.isPrefixOf (c :: ps) = true
            · rw [if_pos h12, if_pos h12,
                ih g ((c :: ps).drop 7)
                  (by simp only [List.length_drop, List.length_cons]; omega)
                  (by simp only [List.length_drop, List.length_cons]; omega)]
            · rw [if_neg h12, if_neg h12]
              by_cases hbs : c = '\\'
              · rw [if_pos hbs, if_pos hbs]
                match ps with
                | [] => rfl
                | p2 :: ps2 =>
                  dsimp only
                  rw [ih g ps2 (by simp at hf; omega) (by simp at hg; omega)]
              · rw [if_neg hbs, if_neg hbs,
                  ih g ps (by omega) (by omega)]

theorem patParse_nil : patParse [] = [] := rfl

theorem patParse_cons (c : Char) (ps : List Char) :
    patParse (c :: ps) =
      if d4pat.isPrefixOf (c :: ps) then .D4 :: patParse ((c :: ps).drop 5)
      else if d2pat.isPrefixOf (c :: ps) then
        .D2 :: patParse ((c :: ps).drop 5)
      else if d12pat.isPrefixOf (c :: ps) then
        .D12 :: patParse ((c :: ps).drop 7)
      else if c = '\\' then
        match ps with
        | p2 :: ps2 => .Lit p2 :: patParse ps2
        | [] => [.Lit '\\']
      else .Lit c :: patParse ps := by
  show patParseF (ps.length + 1) (c :: ps) = _
  simp only [patParseF]
  by_cases h4 : d4pat.isPrefixOf (c :: ps) = true
  · rw [if_pos h4, if_pos h4,
      patParseF_irrel ps.length ((c :: ps).drop 5).length ((c :: ps).drop 5)
        (by simp only [List.length_drop, List.length_cons]; omega) le_rfl]
    rfl
  · rw [if_neg h4, if_neg h4]
    by_cases h2 : d2pat.isPrefixOf (c :: ps) = true
    · rw [if_pos h2, if_pos h2,
        patParseF_irrel ps.length ((c :: ps).drop 5).length ((c :: ps).drop 5)
          (by simp only [List.length_drop, List.length_cons]; omega) le_rfl]
      rfl
    · rw [if_neg h2, if_neg h2]
      by_cases h12 : d12pat.isPrefixOf (c :: ps) = true
      · rw [if_pos h12, if_pos h12,
          patParseF_irrel ps.length ((c :: ps).drop 7).length
            ((c :: ps).drop 7)
            (by simp only [List.length_drop, List.length_cons]; omega) le_rfl]
        rfl
      · rw [if_neg h12, if_neg h12]
        by_cases hbs : c = '\\'
        · rw [if_pos hbs, if_pos hbs]
          match ps with
          | [] => rfl
          | p2 :: ps2 =>
            dsimp only
            rw [patParseF_irrel (p2 :: ps2).length ps2.length ps2 (by simp)
              le_rfl]
            rfl
        · rw [if_neg hbs, if_neg hbs,
            patParseF_irrel ps.length ps.length ps le_rfl le_rfl]
          rfl

theorem getSubstitutionF_irrel (matched before after : List Char) :
    ∀ (f g : Nat) (l : List Char), l.length ≤ f → l.length ≤ g →
    getSubstitutionF matched before after f l =
    getSubstitutionF matched before after g l := by
  intro f
  induction f with
  | zero =>
    intro g l hf hg
    match l with
    | [] =>
      match g with
      | 0 => rfl
      | g + 1 => rfl
    | c :: r => simp at hf
  | succ f ih =>
    intro g l hf hg
    match l with
    | [] =>
      match g with
      | 0 => rfl
      | g + 1 => rfl
    | c :: r =>
      match g with
      | 0 => simp at hg
      | g + 1 =>
        simp only [getSubstitutionF]
        by_cases hc : c = '$'
        · rw [if_pos hc, if_pos hc]
          match r with
          | [] => rfl
          | c2 :: r2 =>
            dsimp only
            have h2f : r2.length ≤ f := by simp at hf; omega
            have h2g : r2.length ≤ g := by simp at hg; omega
            have h3f : (c2 :: r2).length ≤ f := by simp at hf ⊢; omega
            have h3g : (c2 :: r2).length ≤ g := by simp at hg ⊢; omega
            by_cases e1 : c2 = '$'
            · rw [if_pos e1, if_pos e1, ih g r2 h2f h2g]
            · rw [if_neg e1, if_neg e1]
              by_cases e2 : c2 = '&'
              · rw [if_pos e2, if_pos e2, ih g r2 h2f h2g]
              · rw [if_neg e2, if_neg e2]
                by_cases e3 : c2 = Char.ofNat 96
                · rw [if_pos e3, if_pos e3, ih g r2 h2f h2g]
                · rw [if_neg e3, if_neg e3]
                  by_cases e4 : c2 = Char.ofNat 39
                  · rw [if_pos e4, if_pos e4, ih g r2 h2f h2g]
                  · rw [if_neg e4, if_neg e4, ih g (c2 :: r2) h3f h3g]
        · rw [if_neg hc, if_neg hc,
            ih g r (by simp at hf; omega) (by simp at hg; omega)]

theorem getSubstitution_id (matched before after : List Char) :
    ∀ repl, '$' ∉ repl →
    getSubstitution matched before after repl = repl := by
  intro repl
  induction repl with
  | nil => intro h; rfl
  | cons c r ih =>
    intro h
    have hc : c ≠ '$' := fun he => h (by simp [he])
    have hr : '$' ∉ r := fun hm => h (List.mem_cons_of_mem c hm)
    show getSubstitutionF matched before after (c :: r).length (c :: r) = _
    simp only [List.length_cons, getSubstitutionF]
    rw [if_neg hc]
    have : getSubstitutionF matched before after r.length r = r := ih hr
    rw [this]

theorem lookupFm_setFm (fm : Frontmatter) (k : List Char) (v : FmVal) :
    lookupFm (setFm fm k v) k = some v := by
  induction fm with
  | nil => simp [setFm, lookupFm]
  | cons e r ih =>
    obtain ⟨k', v'⟩ := e
    by_cases hk : k' = k
    · simp [setFm, hk, lookupFm]
    · simp [setFm, hk, lookupFm, ih]

theorem setFm_changes {fm : Frontmatter} {k : List Char} {v : FmVal}
    (h : lookupFm fm k ≠ some v) : setFm fm k v ≠ fm := by
  intro he
  apply h
  calc lookupFm fm k = lookupFm (setFm fm k v) k := by rw [he]
    _ = some v := lookupFm_setFm fm k v

/-- The first-match replacement, written without the GetSubstitution
step, for `$`-free replacement strings. -/
theorem replaceDate_eq_of_search {fmt name repl : List Char}
    (hd : '$' ∉ repl) {stt len : Nat}
    (hs : searchFrom (createDatePatternFromFormat fmt) name =
      some (stt, len)) :
    replaceDateInFilename fmt name repl =
      name.take stt ++ repl ++ name.drop (stt + len) := by
  unfold replaceDateInFilename replaceFirst testPat
  simp only [hs]
  rw [getSubstitution_id _ _ _ repl hd]
  rfl

theorem replaceDate_eq_of_no_match {fmt name repl : List Char}
    (hs : searchFrom (createDatePatternFromFormat fmt) name = none) :
    replaceDateInFilename fmt name repl = name := by
  unfold replaceDateInFilename testPat
  simp [hs]

/-! ## The replacement pipeline agrees with structural compilation -/

theorem isPrefixOf_cons_ne {p c : Char} (ps l : List Char) (h : c ≠ p) :
    (p :: ps).isPrefixOf (c :: l) = false := by
  simp [List.isPrefixOf]
  intro he
  exact absurd he.symm h

theorem isPrefixOf_self_append : ∀ (a t : List Char),
    a.isPrefixOf (a ++ t) = true := by
  intro a
  induction a with
  | nil => intro t; simp [List.isPrefixOf]
  | cons c cs ih => intro t; simp [List.isPrefixOf, ih]

theorem eq_append_of_isPrefixOf : ∀ {a s : List Char},
    a.isPrefixOf s = true → s = a ++ s.drop a.length := by
  intro a
  induction a with
  | nil => intro s _; simp
  | cons c cs ih =>
    intro s h
    match s with
    | [] => simp [List.isPrefixOf] at h
    | b :: t =>
      simp only [List.isPrefixOf, Bool.and_eq_true, beq_iff_eq] at h
      obtain ⟨rfl, h2⟩ := h
      simpa using ih h2

theorem head_eq_of_isPrefixOf {a : Char} {l X : List Char}
    (h : (a :: l).isPrefixOf X = true) : X.head? = some a := by
  match X with
  | [] => simp [List.isPrefixOf] at h
  | b :: t =>
    simp only [List.isPrefixOf, Bool.and_eq_true, beq_iff_eq] at h
    simp [h.1]

theorem isPrefixOf_of_append_isPrefixOf : ∀ {l1 l2 X : List Char},
    (l1 ++ l2).isPrefixOf X = true → l1.isPrefixOf X = true := by
  intro l1
  induction l1 with
  | nil => intro l2 X _; simp [List.isPrefixOf]
  | cons c cs ih =>
    intro l2 X h
    match X with
    | [] => simp [List.isPrefixOf] at h
    | b :: t =>
      simp only [List.cons_append, List.isPrefixOf, Bool.and_eq_true,
        beq_iff_eq] at h ⊢
      exact ⟨h.1, ih h.2⟩

theorem replaceList_skip {p : Char} {ps repl : List Char} {c : Char}
    {cs : List Char} (h : (p :: ps).isPrefixOf (c :: cs) = false) :
    replaceList p ps repl (c :: cs) = c :: replaceList p ps repl cs := by
  rw [replaceList_cons, h]
  simp

theorem replaceList_skip_ne {p c : Char} (ps repl : List Char)
    {cs : List Char} (h : c ≠ p) :
    replaceList p ps repl (c :: cs) = c :: replaceList p ps repl cs :=
  replaceList_skip (isPrefixOf_cons_ne ps cs h)

theorem replaceList_fires (p : Char) (ps repl t : List Char) :
    replaceList p ps repl (p :: ps ++ t) = repl ++ replaceList p ps repl t := by
  rw [show p :: ps ++ t = p :: (ps ++ t) from rfl, replaceList_cons,
    show (p :: ps).isPrefixOf (p :: (ps ++ t)) = true from
      isPrefixOf_self_append (p :: ps) t]
  simp [List.drop_left]

theorem replaceList_append_not_mem (p : Char) (ps repl : List Char) :
    ∀ (a t : List Char), p ∉ a →
    replaceList p ps repl (a ++ t) = a ++ replaceList p ps repl t := by
  intro a
  induction a with
  | nil => intro t _; rfl
  | cons c cs ih =>
    intro t hp
    have hc : c ≠ p := fun he => hp (by simp [he])
    have hcs : p ∉ cs := fun hm => hp (List.mem_cons_of_mem c hm)
    rw [List.cons_append, replaceList_skip_ne ps repl hc, ih t hcs,
      List.cons_append]

theorem replaceList_head_ne {x p : Char} {ps repl : List Char}
    (hne : repl ≠ []) (hh : repl.head? ≠ some x) :
    ∀ {l : List Char}, l.head? ≠ some x →
    (replaceList p ps repl l).head? ≠ some x := by
  intro l hl
  match l with
  | [] => simp [replaceList_nil]
  | c :: cs =>
    rw [replaceList_cons]
    by_cases hp : (p :: ps).isPrefixOf (c :: cs) = true
    · rw [if_pos hp]
      match repl, hne with
      | rc :: rr, _ => simpa using hh
    · rw [if_neg (by simpa using hp)]
      simpa using hl

theorem escapeRegex_nil : escapeRegex [] = [] := rfl

theorem escapeRegex_cons (c : Char) (l : List Char) :
    escapeRegex (c :: l) = escChar c ++ escapeRegex l := by
  simp [escapeRegex]

theorem escapeRegex_append (a b : List Char) :
    escapeRegex (a ++ b) = escapeRegex a ++ escapeRegex b := by
  simp [escapeRegex]

theorem escapeRegex_head_ne {x : Char} (hx : x ≠ '\\') :
    ∀ {l : List Char}, l.head? ≠ some x →
    (escapeRegex l).head? ≠ some x := by
  intro l hl
  match l with
  | [] => simp [escapeRegex_nil]
  | c :: cs =>
    rw [escapeRegex_cons]
    unfold escChar
    by_cases hsp : isRegexSpecial c
    · rw [if_pos hsp]
      simpa using (Ne.symm hx)
    · rw [if_neg hsp]
      simpa using hl

theorem escChar_nonspecial {c : Char} (h : ¬isRegexSpecial c = true) :
    escChar c = [c] := by
  unfold escChar
  rw [if_neg h]

theorem special_ne_y {c : Char} (h : isRegexSpecial c = true) : c ≠ 'Y' :=
  fun hc => absurd h (by subst hc; decide)

theorem special_ne_m {c : Char} (h : isRegexSpecial c = true) : c ≠ 'M' :=
  fun hc => absurd h (by subst hc; decide)

theorem special_ne_d {c : Char} (h : isRegexSpecial c = true) : c ≠ 'D' :=
  fun hc => absurd h (by subst hc; decide)

theorem escChar_y : escChar 'Y' = ['Y'] := by decide

theorem escChar_m : escChar 'M' = ['M'] := by decide

theorem escChar_d : escChar 'D' = ['D'] := by decide

theorem singleton_isPrefixOf_false_of_head_ne {c : Char} {X : List Char}
    (h : X.head? ≠ some c) : ([c] : List Char).isPrefixOf X = false := by
  match X with
  | [] => rfl
  | x :: t =>
    have hx : x ≠ c := fun he => h (by simp [he])
    simp [List.isPrefixOf]
    exact fun he => absurd he.symm hx

theorem head_ne_of_singleton_isPrefixOf_false {c : Char} {X : List Char}
    (h : ([c] : List Char).isPrefixOf X = false) : X.head? ≠ some c := by
  match X with
  | [] => simp
  | x :: t =>
    intro he
    have hx : x = c := by simpa using he
    subst hx
    simp [List.isPrefixOf] at h

theorem replaceList_fires_y4 (t : List Char) :
    replaceList 'Y' ['Y', 'Y', 'Y'] d4pat ('Y' :: 'Y' :: 'Y' :: 'Y' :: t) =
      d4pat ++ replaceList 'Y' ['Y', 'Y', 'Y'] d4pat t :=
  replaceList_fires 'Y' ['Y', 'Y', 'Y'] d4pat t

theorem replaceList_fires_y2 (t : List Char) :
    replaceList 'Y' ['Y'] d2pat ('Y' :: 'Y' :: t) =
      d2pat ++ replaceList 'Y' ['Y'] d2pat t :=
  replaceList_fires 'Y' ['Y'] d2pat t

theorem replaceList_fires_m2 (t : List Char) :
    replaceList 'M' ['M'] d2pat ('M' :: 'M' :: t) =
      d2pat ++ replaceList 'M' ['M'] d2pat t :=
  replaceList_fires 'M' ['M'] d2pat t

theorem replaceList_fires_m1 (t : List Char) :
    replaceList 'M' [] d12pat ('M' :: t) =
      d12pat ++ replaceList 'M' [] d12pat t :=
  replaceList_fires 'M' [] d12pat t

theorem replaceList_fires_d2 (t : List Char) :
    replaceList 'D' ['D'] d2pat ('D' :: 'D' :: t) =
      d2pat ++ replaceList 'D' ['D'] d2pat t :=
  replaceList_fires 'D' ['D'] d2pat t

theorem replaceList_fires_d1 (t : List Char) :
    replaceList 'D' [] d12pat ('D' :: t) =
      d12pat ++ replaceList 'D' [] d12pat t :=
  replaceList_fires 'D' [] d12pat t

/-- A string whose escaped form starts with 'Y' itself starts with 'Y',
and escaping then commutes with uncons. -/
theorem esc_head_y : ∀ l : List Char,
    (escapeRegex l).head? = some 'Y' →
    ∃ l2, l = 'Y' :: l2 ∧ escapeRegex l = 'Y' :: escapeRegex l2 := by
  intro l hh
  match l with
  | [] => simp [escapeRegex_nil] at hh
  | c :: t =>
    rw [escapeRegex_cons] at hh
    by_cases hsp : isRegexSpecial c
    · rw [escChar, if_pos hsp] at hh
      simp at hh
    · rw [escChar_nonspecial hsp] at hh
      simp at hh
      subst hh
      exact ⟨t, rfl, by rw [escapeRegex_cons, escChar_y, List.singleton_append]⟩

/-- Escaping cannot create a leading "YY" that the format itself lacks. -/
theorem yy_esc_false {r : List Char}
    (h : (['Y', 'Y'] : List Char).isPrefixOf r = false) :
    (['Y', 'Y'] : List Char).isPrefixOf (escapeRegex r) = false := by
  cases hb : (['Y', 'Y'] : List Char).isPrefixOf (escapeRegex r) with
  | false => rfl
  | true =>
    exfalso
    have hh := head_eq_of_isPrefixOf hb
    obtain ⟨r2, rfl, he⟩ := esc_head_y r hh
    rw [he] at hb
    simp only [List.isPrefixOf, beq_self_eq_true, Bool.true_and] at hb
    have hh2 := head_eq_of_isPrefixOf
      (show (['Y'] : List Char).isPrefixOf (escapeRegex r2) = true from hb)
    obtain ⟨r3, rfl, _⟩ := esc_head_y r2 hh2
    simp [List.isPrefixOf] at h

/-- Compiling a format that starts with the YYYY token. -/
theorem compile_y4 (r : List Char) :
    createDatePatternFromFormat ('Y' :: 'Y' :: 'Y' :: 'Y' :: r) =
      d4pat ++ createDatePatternFromFormat r := by
  unfold createDatePatternFromFormat
  simp only [escapeRegex_cons, escChar_y, List.singleton_append]
  rw [replaceList_fires_y4,
    replaceList_append_not_mem 'Y' ['Y'] d2pat d4pat _ (by decide),
    replaceList_append_not_mem 'M' ['M'] d2pat d4pat _ (by decide),
    replaceList_append_not_mem 'M' [] d12pat d4pat _ (by decide),
    replaceList_append_not_mem 'D' ['D'] d2pat d4pat _ (by decide),
    replaceList_append_not_mem 'D' [] d12pat d4pat _ (by decide)]

/-- Compiling a format that starts with the MM token. -/
theorem compile_m2 (r : List Char) :
    createDatePatternFromFormat ('M' :: 'M' :: r) =
      d2pat ++ createDatePatternFromFormat r := by
  unfold createDatePatternFromFormat
  simp only [escapeRegex_cons, escChar_m, List.singleton_append]
  rw [replaceList_skip_ne ['Y', 'Y', 'Y'] d4pat (by decide),
    replaceList_skip_ne ['Y', 'Y', 'Y'] d4pat (by decide),
    replaceList_skip_ne ['Y'] d2pat (by decide),
    replaceList_skip_ne ['Y'] d2pat (by decide),
    replaceList_fires_m2,
    replaceList_append_not_mem 'M' [] d12pat d2pat _ (by decide),
    replaceList_append_not_mem 'D' ['D'] d2pat d2pat _ (by decide),
    replaceList_append_not_mem 'D' [] d12pat d2pat _ (by decide)]

/-- Compiling a format that starts with the DD token. -/
theorem compile_d2 (r : List Char) :
    createDatePatternFromFormat ('D' :: 'D' :: r) =
      d2pat ++ createDatePatternFromFormat r := by
  unfold createDatePatternFromFormat
  simp only [escapeRegex_cons, escChar_d, List.singleton_append]
  rw [replaceList_skip_ne ['Y', 'Y', 'Y'] d4pat (by decide),
    replaceList_skip_ne ['Y', 'Y', 'Y'] d4pat (by decide),
    replaceList_skip_ne ['Y'] d2pat (by decide),
    replaceList_skip_ne ['Y'] d2pat (by decide),
    replaceList_skip_ne ['M'] d2pat (by decide),
    replaceList_skip_ne ['M'] d2pat (by decide),
    replaceList_skip_ne [] d12pat (by decide),
    replaceList_skip_ne [] d12pat (by decide),
    replaceList_fires_d2,
    replaceList_append_not_mem 'D' [] d12pat d2pat _ (by decide)]

/-- Compiling a format that starts with the YY token (and not YYYY). -/
theorem compile_y2 (r : List Char)
    (hr : (['Y', 'Y'] : List Char).isPrefixOf r = false) :
    createDatePatternFromFormat ('Y' :: 'Y' :: r) =
      d2pat ++ createDatePatternFromFormat r := by
  unfold createDatePatternFromFormat
  simp only [escapeRegex_cons, escChar_y, List.singleton_append]
  have hEsc : (['Y', 'Y'] : List Char).isPrefixOf (escapeRegex r) = false :=
    yy_esc_false hr
  have h0 : (('Y' : Char) :: ['Y', 'Y', 'Y']).isPrefixOf
      ('Y' :: 'Y' :: escapeRegex r) = false := by
    simp only [List.isPrefixOf, beq_self_eq_true, Bool.true_and]
    exact hEsc
  have h1 : (['Y', 'Y', 'Y'] : List Char).isPrefixOf (escapeRegex r) =
      false := by
    cases hx : (['Y', 'Y', 'Y'] : List Char).isPrefixOf (escapeRegex r) with
    | false => rfl
    | true =>
      have hw := isPrefixOf_of_append_isPrefixOf
        (show ((['Y', 'Y'] : List Char) ++ ['Y']).isPrefixOf
          (escapeRegex r) = true from hx)
      rw [hEsc] at hw
      cases hw
  have h1' : (('Y' : Char) :: ['Y', 'Y', 'Y']).isPrefixOf
      ('Y' :: escapeRegex r) = false := by
    simp only [List.isPrefixOf, beq_self_eq_true, Bool.true_and]
    exact h1
  rw [replaceList_skip h0, replaceList_skip h1', replaceList_fires_y2,
    replaceList_append_not_mem 'M' ['M'] d2pat d2pat _ (by decide),
    replaceList_append_not_mem 'M' [] d12pat d2pat _ (by decide),
    replaceList_append_not_mem 'D' ['D'] d2pat d2pat _ (by decide),
    replaceList_append_not_mem 'D' [] d12pat d2pat _ (by decide)]

/-- Compiling a format that starts with the M token (and not MM). -/
theorem compile_m1 (r : List Char) (hr : r.head? ≠ some 'M') :
    createDatePatternFromFormat ('M' :: r) =
      d12pat ++ createDatePatternFromFormat r := by
  unfold createDatePatternFromFormat
  simp only [escapeRegex_cons, escChar_m, List.singleton_append]
  have hE : (escapeRegex r).head? ≠ some 'M' :=
    escapeRegex_head_ne (by decide) hr
  have hX1 : (replaceList 'Y' ['Y', 'Y', 'Y'] d4pat
      (escapeRegex r)).head? ≠ some 'M' :=
    replaceList_head_ne (by decide) (by decide) hE
  have hX2 : (replaceList 'Y' ['Y'] d2pat (replaceList 'Y' ['Y', 'Y', 'Y']
      d4pat (escapeRegex r))).head? ≠ some 'M' :=
    replaceList_head_ne (by decide) (by decide) hX1
  have hpre : (('M' : Char) :: ['M']).isPrefixOf
      ('M' :: replaceList 'Y' ['Y'] d2pat (replaceList 'Y' ['Y', 'Y', 'Y']
        d4pat (escapeRegex r))) = false := by
    simp only [List.isPrefixOf, beq_self_eq_true, Bool.true_and]
    exact singleton_isPrefixOf_false_of_head_ne hX2
  rw [replaceList_skip_ne ['Y', 'Y', 'Y'] d4pat (by decide),
    replaceList_skip_ne ['Y'] d2pat (by decide),
    replaceList_skip hpre,
    replaceList_fires_m1,
    replaceList_append_not_mem 'D' ['D'] d2pat d12pat _ (by decide),
    replaceList_append_not_mem 'D' [] d12pat d12pat _ (by decide)]

/-- Compiling a format that starts with the D token (and not DD). -/
theorem compile_d1 (r : List Char) (hr : r.head? ≠ some 'D') :
    createDatePatternFromFormat ('D' :: r) =
      d12pat ++ createDatePatternFromFormat r := by
  unfold createDatePatternFromFormat
  simp only [escapeRegex_cons, escChar_d, List.singleton_append]
  have hE : (escapeRegex r).head? ≠ some 'D' :=
    escapeRegex_head_ne (by decide) hr
  have hX1 : (replaceList 'Y' ['Y', 'Y', 'Y'] d4pat
      (escapeRegex r)).head? ≠ some 'D' :=
    replaceList_head_ne (by decide) (by decide) hE
  have hX2 : (replaceList 'Y' ['Y'] d2pat (replaceList 'Y' ['Y', 'Y', 'Y']
      d4pat (escapeRegex r))).head? ≠ some 'D' :=
    replaceList_head_ne (by decide) (by decide) hX1
  have hX3 : (replaceList 'M' ['M'] d2pat (replaceList 'Y' ['Y'] d2pat
      (replaceList 'Y' ['Y', 'Y', 'Y'] d4pat
        (escapeRegex r)))).head? ≠ some 'D' :=
    replaceList_head_ne (by decide) (by decide) hX2
  have hX4 : (replaceList 'M' [] d12pat (replaceList 'M' ['M'] d2pat
      (replaceList 'Y' ['Y'] d2pat (replaceList 'Y' ['Y', 'Y', 'Y'] d4pat
        (escapeRegex r))))).head? ≠ some 'D' :=
    replaceList_head_ne (by decide) (by decide) hX3
  have hpre : (('D' : Char) :: ['D']).isPrefixOf
      ('D' :: replaceList 'M' [] d12pat (replaceList 'M' ['M'] d2pat
        (replaceList 'Y' ['Y'] d2pat (replaceList 'Y' ['Y', 'Y', 'Y'] d4pat
          (escapeRegex r))))) = false := by
    simp only [List.isPrefixOf, beq_self_eq_true, Bool.true_and]
    exact singleton_isPrefixOf_false_of_head_ne hX4
  rw [replaceList_skip_ne ['Y', 'Y', 'Y'] d4pat (by decide),
    replaceList_skip_ne ['Y'] d2pat (by decide),
    replaceList_skip_ne ['M'] d2pat (by decide),
    replaceList_skip_ne [] d12pat (by decide),
    replaceList_skip hpre,
    replaceList_fires_d1]

/-- Compiling a format that starts with a literal (non-token) character. -/
theorem compile_lit (c : Char) (r : List Char) (hM : c ≠ 'M') (hD : c ≠ 'D')
    (hYY : (['Y', 'Y'] : List Char).isPrefixOf (c :: r) = false) :
    createDatePatternFromFormat (c :: r) =
      escChar c ++ createDatePatternFromFormat r := by
  unfold createDatePatternFromFormat
  by_cases hsp : isRegexSpecial c
  · rw [show escapeRegex (c :: r) = '\\' :: c :: escapeRegex r from by
      rw [escapeRegex_cons, escChar, if_pos hsp]; rfl]
    have hcy := special_ne_y hsp
    rw [replaceList_skip_ne ['Y', 'Y', 'Y'] d4pat (by decide),
      replaceList_skip_ne ['Y', 'Y', 'Y'] d4pat hcy,
      replaceList_skip_ne ['Y'] d2pat (by decide),
      replaceList_skip_ne ['Y'] d2pat hcy,
      replaceList_skip_ne ['M'] d2pat (by decide),
      replaceList_skip_ne ['M'] d2pat hM,
      replaceList_skip_ne [] d12pat (by decide),
      replaceList_skip_ne [] d12pat hM,
      replaceList_skip_ne ['D'] d2pat (by decide),
      replaceList_skip_ne ['D'] d2pat hD,
      replaceList_skip_ne [] d12pat (by decide),
      replaceList_skip_ne [] d12pat hD]
    simp only [escChar]
    rw [if_pos hsp]
    simp only [List.cons_append, List.nil_append]
  · rw [show escapeRegex (c :: r) = c :: escapeRegex r from by
      rw [escapeRegex_cons, escChar_nonspecial hsp, List.singleton_append]]
    by_cases hcy : c = 'Y'
    · subst hcy
      have hrY : r.head? ≠ some 'Y' := by
        have hone : (['Y'] : List Char).isPrefixOf r = false := by
          simpa [List.isPrefixOf] using hYY
        exact head_ne_of_singleton_isPrefixOf_false hone
      have hE : (escapeRegex r).head? ≠ some 'Y' :=
        escapeRegex_head_ne (by decide) hrY
      have h0 : (('Y' : Char) :: ['Y', 'Y', 'Y']).isPrefixOf
          ('Y' :: escapeRegex r) = false := by
        simp only [List.isPrefixOf, beq_self_eq_true, Bool.true_and]
        cases hx : (['Y', 'Y', 'Y'] : List Char).isPrefixOf
            (escapeRegex r) with
        | false => rfl
        | true => exact absurd (head_eq_of_isPrefixOf hx) hE
      have hX1 : (replaceList 'Y' ['Y', 'Y', 'Y'] d4pat
          (escapeRegex r)).head? ≠ some 'Y' :=
        replaceList_head_ne (by decide) (by decide) hE
      have h1 : (('Y' : Char) :: ['Y']).isPrefixOf
          ('Y' :: replaceList 'Y' ['Y', 'Y', 'Y'] d4pat
            (escapeRegex r)) = false := by
        simp only [List.isPrefixOf, beq_self_eq_true, Bool.true_and]
        exact singleton_isPrefixOf_false_of_head_ne hX1
      rw [replaceList_skip h0, replaceList_skip h1,
        replaceList_skip_ne ['M'] d2pat hM,
        replaceList_skip_ne [] d12pat hM,
        replaceList_skip_ne ['D'] d2pat hD,
        replaceList_skip_ne [] d12pat hD,
        escChar_y, List.singleton_append]
    · rw [replaceList_skip_ne ['Y', 'Y', 'Y'] d4pat hcy,
        replaceList_skip_ne ['Y'] d2pat hcy,
        replaceList_skip_ne ['M'] d2pat hM,
        replaceList_skip_ne [] d12pat hM,
        replaceList_skip_ne ['D'] d2pat hD,
        replaceList_skip_ne [] d12pat hD,
        escChar_nonspecial hsp, List.singleton_append]

theorem eq_nil_of_nextTok_none {s : List Char} (h : nextTok s = none) :
    s = [] := by
  match s with
  | [] => rfl
  | c :: r =>
    exfalso
    simp only [nextTok] at h
    split at h
    · cases h
    · split at h
      · cases h
      · split at h
        · cases h
        · split at h
          · cases h
          · split at h
            · cases h
            · split at h
              · cases h
              · cases h

/-- The source's sequential global-replacement pipeline computes exactly
the structural longest-token-first compilation, for every format
string. -/
theorem compile_eq_patOfFmt : ∀ s,
    createDatePatternFromFormat s = patOfFmt s := by
  refine fmtRec _ ?_ ?_
  · intro s h
    rw [eq_nil_of_nextTok_none h]
    rfl
  · intro s t r h ih
    rw [patOfFmt_some h]
    match s, h with
    | c :: rest, h =>
      simp only [nextTok] at h
      split at h
      · rename_i hc
        cases h
        have hs : c :: rest = 'Y' :: 'Y' :: 'Y' :: 'Y' ::
            ((c :: rest).drop 4) := eq_append_of_isPrefixOf hc
        conv_lhs => rw [hs]
        rw [compile_y4, ih]
        rfl
      · rename_i hn4
        split at h
        · rename_i hc
          cases h
          have hs : c :: rest = 'Y' :: 'Y' :: ((c :: rest).drop 2) :=
            eq_append_of_isPrefixOf hc
          have hn4' : ¬(tokChars FmtTok.Y4).isPrefixOf
              ('Y' :: 'Y' :: ((c :: rest).drop 2)) = true := by
            rw [← hs]; exact hn4
          have hyy : (['Y', 'Y'] : List Char).isPrefixOf
              ((c :: rest).drop 2) = false := by
            simp only [tokChars, List.isPrefixOf, beq_self_eq_true,
              Bool.true_and, Bool.not_eq_true] at hn4'
            exact hn4'
          conv_lhs => rw [hs]
          rw [compile_y2 _ hyy, ih]
          rfl
        · rename_i hn2
          split at h
          · rename_i hc
            cases h
            have hs : c :: rest = 'M' :: 'M' :: ((c :: rest).drop 2) :=
              eq_append_of_isPrefixOf hc
            conv_lhs => rw [hs]
            rw [compile_m2, ih]
            rfl
          · rename_i hnm2
            split at h
            · rename_i hc
              cases h
              have hs : c :: rest = 'M' :: ((c :: rest).drop 1) :=
                eq_append_of_isPrefixOf hc
              have hnm2' : ¬(tokChars FmtTok.M2).isPrefixOf
                  ('M' :: ((c :: rest).drop 1)) = true := by
                rw [← hs]; exact hnm2
              have hm : ((c :: rest).drop 1).head? ≠ some 'M' := by
                apply head_ne_of_singleton_isPrefixOf_false
                simp only [tokChars, List.isPrefixOf, beq_self_eq_true,
                  Bool.true_and, Bool.not_eq_true] at hnm2'
                exact hnm2'
              conv_lhs => rw [hs]
              rw [compile_m1 _ hm, ih]
              rfl
            · rename_i hnm1
              split at h
              · rename_i hc
                cases h
                have hs : c :: rest = 'D' :: 'D' :: ((c :: rest).drop 2) :=
                  eq_append_of_isPrefixOf hc
                conv_lhs => rw [hs]
                rw [compile_d2, ih]
                rfl
              · rename_i hnd2
                split at h
                · rename_i hc
                  cases h
                  have hs : c :: rest = 'D' :: ((c :: rest).drop 1) :=
                    eq_append_of_isPrefixOf hc
                  have hnd2' : ¬(tokChars FmtTok.D2).isPrefixOf
                      ('D' :: ((c :: rest).drop 1)) = true := by
                    rw [← hs]; exact hnd2
                  have hd : ((c :: rest).drop 1).head? ≠ some 'D' := by
                    apply head_ne_of_singleton_isPrefixOf_false
                    simp only [tokChars, List.isPrefixOf, beq_self_eq_true,
                      Bool.true_and, Bool.not_eq_true] at hnd2'
                    exact hnd2'
                  conv_lhs => rw [hs]
                  rw [compile_d1 _ hd, ih]
                  rfl
                · rename_i hnd1
                  cases h
                  have hM : c ≠ 'M' := by
                    intro hcM
                    subst hcM
                    exact hnm1 (by simp [tokChars, List.isPrefixOf])
                  have hD : c ≠ 'D' := by
                    intro hcD
                    subst hcD
                    exact hnd1 (by simp [tokChars, List.isPrefixOf])
                  have hYY : (['Y', 'Y'] : List Char).isPrefixOf
                      (c :: r) = false := by
                    cases hb : (['Y', 'Y'] : List Char).isPrefixOf (c :: r)
                    · rfl
                    · exact absurd hb hn2
                  rw [compile_lit c r hM hD hYY, ih]
                  rfl

/-! ## Decimal rendering facts -/

theorem digitChar_isDigit : ∀ n, (digitChar n).isDigit = true := by
  intro n
  match n with
  | 0 | 1 | 2 | 3 | 4 | 5 | 6 | 7 | 8 => rfl
  | n + 9 => rfl

theorem charVal_digitChar : ∀ n, n < 10 → charVal (digitChar n) = n := by
  intro n h
  interval_cases n <;> rfl

theorem natChars_ne_nil (n : Nat) : natChars n ≠ [] := by
  rw [natChars_unfold]
  by_cases h : n < 10
  · simp [h]
  · simp [h]

theorem natChars_all_digits (n : Nat) :
    (natChars n).all Char.isDigit = true := by
  induction n using Nat.strong_induction_on with
  | _ n ih =>
    rw [natChars_unfold]
    by_cases h : n < 10
    · simp [h, digitChar_isDigit]
    · have hdiv : n / 10 < n := Nat.div_lt_self (by omega) (by omega)
      simp [h, List.all_append, digitChar_isDigit]
      simpa using ih _ hdiv

theorem natChars_length_le : ∀ (k n : Nat), n < 10 ^ (k + 1) →
    (natChars n).length ≤ k + 1 := by
  intro k
  induction k with
  | zero =>
    intro n h
    rw [natChars_unfold]
    simp at h
    simp [h]
  | succ k ih =>
    intro n h
    rw [natChars_unfold]
    by_cases h10 : n < 10
    · simp [h10]
    · simp only [h10, if_false, List.length_append, List.length_cons,
        List.length_nil]
      have : n / 10 < 10 ^ (k + 1) := by
        rw [Nat.div_lt_iff_lt_mul (by omega)]
        calc n < 10 ^ (k + 2) := h
          _ = 10 ^ (k + 1) * 10 := by ring
      have := ih (n / 10) this
      omega

theorem natChars_length_pos (n : Nat) : 1 ≤ (natChars n).length := by
  rw [natChars_unfold]
  by_cases h : n < 10
  · simp [h]
  · simp [h]

theorem padNum_length {w n : Nat} (h : n < 10 ^ w) (hw : 1 ≤ w) :
    (padNum w n).length = w := by
  unfold padNum
  have hle : (natChars n).length ≤ w := by
    match w, hw with
    | w + 1, _ => exact natChars_length_le w n h
  simp only [List.length_append, List.length_replicate]
  omega

theorem padNum_all_digits (w n : Nat) :
    (padNum w n).all Char.isDigit = true := by
  unfold padNum
  simp [List.all_append, natChars_all_digits]

theorem chunkVal_append_singleton (xs : List Char) (c : Char) :
    chunkVal (xs ++ [c]) = 10 * chunkVal xs + charVal c := by
  unfold chunkVal
  rw [List.foldl_append]
  rfl

theorem chunkVal_natChars (n : Nat) : chunkVal (natChars n) = n := by
  induction n using Nat.strong_induction_on with
  | _ n ih =>
    rw [natChars_unfold]
    by_cases h : n < 10
    · simp [h]
      show 10 * 0 + charVal (digitChar n) = n
      rw [charVal_digitChar n h]
      omega
    · have hdiv : n / 10 < n := Nat.div_lt_self (by omega) (by omega)
      simp only [h, if_false]
      rw [chunkVal_append_singleton, ih _ hdiv,
        charVal_digitChar _ (Nat.mod_lt n (by omega))]
      omega

theorem chunkVal_zeros_append (k : Nat) (cs : List Char) :
    chunkVal (List.replicate k '0' ++ cs) = chunkVal cs := by
  induction k with
  | zero => simp
  | succ k ih =>
    rw [List.replicate_succ, List.cons_append]
    show chunkVal (List.replicate k '0' ++ cs) = chunkVal cs
    exact ih

theorem chunkVal_padNum (w n : Nat) : chunkVal (padNum w n) = n := by
  unfold padNum
  rw [chunkVal_zeros_append, chunkVal_natChars]

/-! ## Reading produced patterns back as atoms -/

theorem patParse_d4 (ps : List Char) :
    patParse (d4pat ++ ps) = .D4 :: patParse ps := by
  rw [show d4pat ++ ps = '\\' :: 'd' :: '\x7b' :: '4' :: '\x7d' :: ps
      from rfl, patParse_cons,
    if_pos (show d4pat.isPrefixOf
      ('\\' :: 'd' :: '\x7b' :: '4' :: '\x7d' :: ps) = true from
      isPrefixOf_self_append d4pat ps)]
  rfl

theorem patParse_d2 (ps : List Char) :
    patParse (d2pat ++ ps) = .D2 :: patParse ps := by
  rw [show d2pat ++ ps = '\\' :: 'd' :: '\x7b' :: '2' :: '\x7d' :: ps
      from rfl, patParse_cons,
    show d4pat.isPrefixOf
      ('\\' :: 'd' :: '\x7b' :: '2' :: '\x7d' :: ps) = false from rfl]
  simp only [Bool.false_eq_true, if_false]
  rw [if_pos (show d2pat.isPrefixOf
    ('\\' :: 'd' :: '\x7b' :: '2' :: '\x7d' :: ps) = true from
    isPrefixOf_self_append d2pat ps)]
  rfl

theorem patParse_d12 (ps : List Char) :
    patParse (d12pat ++ ps) = .D12 :: patParse ps := by
  rw [show d12pat ++ ps =
      '\\' :: 'd' :: '\x7b' :: '1' :: ',' :: '2' :: '\x7d' :: ps from rfl,
    patParse_cons,
    show d4pat.isPrefixOf
      ('\\' :: 'd' :: '\x7b' :: '1' :: ',' :: '2' :: '\x7d' :: ps) = false
      from rfl,
    show d2pat.isPrefixOf
      ('\\' :: 'd' :: '\x7b' :: '1' :: ',' :: '2' :: '\x7d' :: ps) = false
      from rfl]
  simp only [Bool.false_eq_true, if_false]
  rw [if_pos (show d12pat.isPrefixOf
    ('\\' :: 'd' :: '\x7b' :: '1' :: ',' :: '2' :: '\x7d' :: ps) = true
    from isPrefixOf_self_append d12pat ps)]
  rfl

theorem patParse_esc {c : Char} (hc : c ≠ 'd') (ps : List Char) :
    patParse ('\\' :: c :: ps) = .Lit c :: patParse ps := by
  have k4 : ¬(d4pat.isPrefixOf ('\\' :: c :: ps) = true) := by
    intro hb
    have h2 := isPrefixOf_of_append_isPrefixOf
      (show ((['\\', 'd'] : List Char) ++ ['\x7b', '4', '\x7d']).isPrefixOf
        ('\\' :: c :: ps) = true from hb)
    simp [List.isPrefixOf] at h2
    exact hc h2.symm
  have k2 : ¬(d2pat.isPrefixOf ('\\' :: c :: ps) = true) := by
    intro hb
    have h2 := isPrefixOf_of_append_isPrefixOf
      (show ((['\\', 'd'] : List Char) ++ ['\x7b', '2', '\x7d']).isPrefixOf
        ('\\' :: c :: ps) = true from hb)
    simp [List.isPrefixOf] at h2
    exact hc h2.symm
  have k12 : ¬(d12pat.isPrefixOf ('\\' :: c :: ps) = true) := by
    intro hb
    have h2 := isPrefixOf_of_append_isPrefixOf
      (show ((['\\', 'd'] : List Char) ++
        ['\x7b', '1', ',', '2', '\x7d']).isPrefixOf
        ('\\' :: c :: ps) = true from hb)
    simp [List.isPrefixOf] at h2
    exact hc h2.symm
  rw [patParse_cons, if_neg k4, if_neg k2, if_neg k12, if_pos rfl]

theorem patParse_lit {c : Char} (hc : c ≠ '\\') (ps : List Char) :
    patParse (c :: ps) = .Lit c :: patParse ps := by
  have k4 : ¬(d4pat.isPrefixOf (c :: ps) = true) := by
    rw [show d4pat = '\\' :: ['d', '\x7b', '4', '\x7d'] from rfl,
      isPrefixOf_cons_ne _ _ hc]
    simp
  have k2 : ¬(d2pat.isPrefixOf (c :: ps) = true) := by
    rw [show d2pat = '\\' :: ['d', '\x7b', '2', '\x7d'] from rfl,
      isPrefixOf_cons_ne _ _ hc]
    simp
  have k12 : ¬(d12pat.isPrefixOf (c :: ps) = true) := by
    rw [show d12pat = '\\' :: ['d', '\x7b', '1', ',', '2', '\x7d'] from rfl,
      isPrefixOf_cons_ne _ _ hc]
    simp
  rw [patParse_cons, if_neg k4, if_neg k2, if_neg k12, if_neg hc]

/-- Reading back the structural compilation of a format gives exactly
the atoms of its token list. -/
theorem patParse_patOfFmt : ∀ s,
    patParse (patOfFmt s) = itemsOfToks (toks s) := by
  refine fmtRec _ ?_ ?_
  · intro s h
    rw [patOfFmt_none h, toks_none h]
    rfl
  · intro s t r h ih
    rw [patOfFmt_some h, toks_some h]
    match t with
    | .Y4 => rw [show patTok FmtTok.Y4 = d4pat from rfl, patParse_d4, ih]; rfl
    | .Y2 => rw [show patTok FmtTok.Y2 = d2pat from rfl, patParse_d2, ih]; rfl
    | .M2 => rw [show patTok FmtTok.M2 = d2pat from rfl, patParse_d2, ih]; rfl
    | .D2 => rw [show patTok FmtTok.D2 = d2pat from rfl, patParse_d2, ih]; rfl
    | .M1 =>
      rw [show patTok FmtTok.M1 = d12pat from rfl, patParse_d12, ih]; rfl
    | .D1 =>
      rw [show patTok FmtTok.D1 = d12pat from rfl, patParse_d12, ih]; rfl
    | .L c =>
      rw [show patTok (FmtTok.L c) = escChar c from rfl]
      by_cases hsp : isRegexSpecial c
      · rw [escChar, if_pos hsp, List.cons_append, List.cons_append,
          List.nil_append,
          patParse_esc (fun he => absurd hsp (by subst he; decide)) _, ih]
        rfl
      · have hbs : c ≠ '\\' := fun he => absurd hsp (by subst he; decide)
        rw [escChar_nonspecial hsp, List.singleton_append, patParse_lit hbs,
          ih]
        rfl

/-! ## The matcher on rendered output -/

theorem matchPI_d4 {cs : List Char} (ps : List PatItem) (inp : List Char)
    (hlen : cs.length = 4) (hdig : cs.all Char.isDigit = true) :
    matchPI (.D4 :: ps) (cs ++ inp) = (matchPI ps inp).map (· + 4) := by
  simp only [matchPI]
  rw [if_pos]
  · rw [show (cs ++ inp).drop 4 = inp from by rw [← hlen, List.drop_left]]
  · constructor
    · simp [List.length_append]; omega
    · rw [show (cs ++ inp).take 4 = cs from by rw [← hlen, List.take_left]]
      exact hdig

theorem matchPI_d2 {cs : List Char} (ps : List PatItem) (inp : List Char)
    (hlen : cs.length = 2) (hdig : cs.all Char.isDigit = true) :
    matchPI (.D2 :: ps) (cs ++ inp) = (matchPI ps inp).map (· + 2) := by
  simp only [matchPI]
  rw [if_pos]
  · rw [show (cs ++ inp).drop 2 = inp from by rw [← hlen, List.drop_left]]
  · constructor
    · simp [List.length_append]; omega
    · rw [show (cs ++ inp).take 2 = cs from by rw [← hlen, List.take_left]]
      exact hdig

theorem matchPI_d12_two {cs : List Char} (ps : List PatItem)
    (inp : List Char) (hlen : cs.length = 2)
    (hdig : cs.all Char.isDigit = true) {n : Nat}
    (hm : matchPI ps inp = some n) :
    matchPI (.D12 :: ps) (cs ++ inp) = some (n + 2) := by
  simp only [matchPI]
  rw [if_pos]
  · rw [show (cs ++ inp).drop 2 = inp from by rw [← hlen, List.drop_left]]
    rw [hm]
    rfl
  · constructor
    · simp [List.length_append]; omega
    · rw [show (cs ++ inp).take 2 = cs from by rw [← hlen, List.take_left]]
      exact hdig

theorem matchPI_d12_one {c : Char} (ps : List PatItem) (inp : List Char)
    (hc : c.isDigit = true)
    (hinp : ∀ c2, inp.head? = some c2 → c2.isDigit = false) {n : Nat}
    (hm : matchPI ps inp = some n) :
    matchPI (.D12 :: ps) (c :: inp) = some (n + 1) := by
  simp only [matchPI]
  match inp, hinp, hm with
  | [], _, hm =>
    rw [if_neg (by simp)]
    simp only [Option.orElse]
    rw [if_pos (by simp [hc])]
    simp [hm]
  | i :: r, hinp, hm =>
    have hi : i.isDigit = false := hinp i rfl
    rw [if_neg (by
      intro hcond
      have h2 := hcond.2
      simp [hi] at h2)]
    simp only [Option.orElse]
    rw [if_pos (by simp [hc])]
    simp [hm]

theorem matchPI_lit (c : Char) (ps : List PatItem) (inp : List Char) :
    matchPI (.Lit c :: ps) (c :: inp) = (matchPI ps inp).map (· + 1) := by
  simp [matchPI]

/-! ## The round trip on well-separated formats -/

theorem renderFmt_eq_rendersToks (dt : CalendarDate) :
    ∀ s, renderFmt dt s = rendersToks dt (toks s) := by
  refine fmtRec _ ?_ ?_
  · intro s h
    rw [renderFmt_none h, toks_none h]
    rfl
  · intro s t r h ih
    rw [renderFmt_some h, toks_some h, ih]
    rfl

theorem sepOK_tail {t : FmtTok} {rest : List FmtTok}
    (h : sepOK (t :: rest) = true) : sepOK rest = true := by
  match rest with
  | [] => rfl
  | u :: r2 =>
    simp only [sepOK, Bool.and_eq_true] at h
    exact h.2

theorem sepOK_head {t u : FmtTok} {r2 : List FmtTok}
    (h : sepOK (t :: u :: r2) = true) (hvar : isVarTok t = true) :
    digitStart u = false := by
  simp only [sepOK, Bool.and_eq_true] at h
  have h1 := h.1
  rw [hvar] at h1
  simpa using h1

theorem rendersToks_head_not_digit (dt : CalendarDate) {t : FmtTok}
    {rest : List FmtTok} (hvar : isVarTok t = true)
    (hsep : sepOK (t :: rest) = true) :
    ∀ c2, (rendersToks dt rest).head? = some c2 → c2.isDigit = false := by
  intro c2 hc2
  match rest with
  | [] => simp [rendersToks] at hc2
  | u :: r2 =>
    have hds := sepOK_head hsep hvar
    cases u with
    | L c =>
      simp only [digitStart] at hds
      simp only [rendersToks, renderTok, List.singleton_append,
        List.head?_cons] at hc2
      cases hc2
      exact hds
    | Y4 => simp [digitStart] at hds
    | Y2 => simp [digitStart] at hds
    | M2 => simp [digitStart] at hds
    | M1 => simp [digitStart] at hds
    | D2 => simp [digitStart] at hds
    | D1 => simp [digitStart] at hds

theorem natChars_lt100 {n : Nat} (h : n < 100) :
    natChars n = [digitChar n] ∨
    natChars n = [digitChar (n / 10), digitChar (n % 10)] := by
  rw [natChars_unfold]
  by_cases h10 : n < 10
  · left
    simp [h10]
  · right
    simp only [h10, if_false]
    rw [natChars_unfold]
    have hq : n / 10 < 10 := by omega
    simp [hq]

theorem render_matchPI (dt : CalendarDate) (hv : validDate dt) :
    ∀ ts : List FmtTok, sepOK ts = true → (FmtTok.Y4 ∈ ts → dt.y ≤ 9999) →
    matchPI (itemsOfToks ts) (rendersToks dt ts) =
      some (rendersToks dt ts).length := by
  have hv2 := hv
  obtain ⟨hm1, hm2, hd1, hd2⟩ := hv2
  have hm100 : dt.m < 100 := by omega
  have hd100 : dt.d < 100 := by
    have h31 : daysInMonth dt.y dt.m ≤ 31 := by
      unfold daysInMonth
      split_ifs <;> omega
    omega
  intro ts
  induction ts with
  | nil =>
    intro _ _
    rfl
  | cons t rest ih =>
    intro hsep hy4
    have hrec := ih (sepOK_tail hsep)
      (fun hm => hy4 (List.mem_cons_of_mem _ hm))
    cases t with
    | Y4 =>
      have hylt : dt.y < 10 ^ 4 := by
        have h9 := hy4 (List.mem_cons_self _ _)
        norm_num
        omega
      rw [show itemsOfToks (FmtTok.Y4 :: rest) =
          PatItem.D4 :: itemsOfToks rest from rfl,
        show rendersToks dt (FmtTok.Y4 :: rest) =
          padNum 4 dt.y ++ rendersToks dt rest from rfl,
        matchPI_d4 _ _ (padNum_length hylt (by norm_num))
          (padNum_all_digits _ _), hrec]
      simp only [List.length_append, padNum_length hylt (by norm_num)]
      show some ((rendersToks dt rest).length + 4) =
        some (4 + (rendersToks dt rest).length)
      congr 1
      omega
    | Y2 =>
      have hylt : dt.y % 100 < 10 ^ 2 := by
        have := Nat.mod_lt dt.y (show 0 < 100 by omega)
        norm_num
        omega
      rw [show itemsOfToks (FmtTok.Y2 :: rest) =
          PatItem.D2 :: itemsOfToks rest from rfl,
        show rendersToks dt (FmtTok.Y2 :: rest) =
          padNum 2 (dt.y % 100) ++ rendersToks dt rest from rfl,
        matchPI_d2 _ _ (padNum_length hylt (by norm_num))
          (padNum_all_digits _ _), hrec]
      simp only [List.length_append, padNum_length hylt (by norm_num)]
      show some ((rendersToks dt rest).length + 2) =
        some (2 + (rendersToks dt rest).length)
      congr 1
      omega
    | M2 =>
      have hlt : dt.m < 10 ^ 2 := by norm_num; omega
      rw [show itemsOfToks (FmtTok.M2 :: rest) =
          PatItem.D2 :: itemsOfToks rest from rfl,
        show rendersToks dt (FmtTok.M2 :: rest) =
          padNum 2 dt.m ++ rendersToks dt rest from rfl,
        matchPI_d2 _ _ (padNum_length hlt (by norm_num))
          (padNum_all_digits _ _), hrec]
      simp only [List.length_append, padNum_length hlt (by norm_num)]
      show some ((rendersToks dt rest).length + 2) =
        some (2 + (rendersToks dt rest).length)
      congr 1
      omega
    | D2 =>
      have hlt : dt.d < 10 ^ 2 := by norm_num; omega
      rw [show itemsOfToks (FmtTok.D2 :: rest) =
          PatItem.D2 :: itemsOfToks rest from rfl,
        show rendersToks dt (FmtTok.D2 :: rest) =
          padNum 2 dt.d ++ rendersToks dt rest from rfl,
        matchPI_d2 _ _ (padNum_length hlt (by norm_num))
          (padNum_all_digits _ _), hrec]
      simp only [List.length_append, padNum_length hlt (by norm_num)]
      show some ((rendersToks dt rest).length + 2) =
        some (2 + (rendersToks dt rest).length)
      congr 1
      omega
    | M1 =>
      rw [show itemsOfToks (FmtTok.M1 :: rest) =
          PatItem.D12 :: itemsOfToks rest from rfl,
        show rendersToks dt (FmtTok.M1 :: rest) =
          natChars dt.m ++ rendersToks dt rest from rfl]
      rcases natChars_lt100 hm100 with hA | hB
      · rw [hA, List.singleton_append,
          matchPI_d12_one _ _ (digitChar_isDigit _)
            (rendersToks_head_not_digit dt
              (show isVarTok FmtTok.M1 = true from rfl) hsep) hrec]
        rw [show (digitChar dt.m :: rendersToks dt rest).length =
          (rendersToks dt rest).length + 1 from rfl]
      · rw [hB, @matchPI_d12_two [digitChar (dt.m / 10), digitChar (dt.m % 10)]
          (itemsOfToks rest) (rendersToks dt rest) rfl
          (by simp [digitChar_isDigit]) _ hrec]
        simp only [List.length_append, List.length_cons, List.length_nil]
        congr 1
        omega
    | D1 =>
      rw [show itemsOfToks (FmtTok.D1 :: rest) =
          PatItem.D12 :: itemsOfToks rest from rfl,
        show rendersToks dt (FmtTok.D1 :: rest) =
          natChars dt.d ++ rendersToks dt rest from rfl]
      rcases natChars_lt100 hd100 with hA | hB
      · rw [hA, List.singleton_append,
          matchPI_d12_one _ _ (digitChar_isDigit _)
            (rendersToks_head_not_digit dt
              (show isVarTok FmtTok.D1 = true from rfl) hsep) hrec]
        rw [show (digitChar dt.d :: rendersToks dt rest).length =
          (rendersToks dt rest).length + 1 from rfl]
      · rw [hB, @matchPI_d12_two [digitChar (dt.d / 10), digitChar (dt.d % 10)]
          (itemsOfToks rest) (rendersToks dt rest) rfl
          (by simp [digitChar_isDigit]) _ hrec]
        simp only [List.length_append, List.length_cons, List.length_nil]
        congr 1
        omega
    | L c =>
      rw [show itemsOfToks (FmtTok.L c :: rest) =
          PatItem.Lit c :: itemsOfToks rest from rfl,
        show rendersToks dt (FmtTok.L c :: rest) =
          c :: rendersToks dt rest from rfl,
        matchPI_lit, hrec]
      rfl

theorem parseStep_y4 {cs : List Char} (hlen : cs.length = 4)
    (hdig : cs.all Char.isDigit = true) (inp : List Char)
    (acc : ParsedFields)
    (k : List Char → ParsedFields → Option ParsedFields) :
    parseStep .Y4 (cs ++ inp) acc k =
      k inp ⟨some (chunkVal cs), acc.pm, acc.pd⟩ := by
  simp only [parseStep]
  rw [if_pos]
  · rw [show (cs ++ inp).drop 4 = inp from by rw [← hlen, List.drop_left],
      show (cs ++ inp).take 4 = cs from by rw [← hlen, List.take_left]]
  · constructor
    · simp only [List.length_append]
      omega
    · rw [show (cs ++ inp).take 4 = cs from by rw [← hlen, List.take_left]]
      exact hdig

theorem parseStep_y2 {cs : List Char} (hlen : cs.length = 2)
    (hdig : cs.all Char.isDigit = true) (inp : List Char)
    (acc : ParsedFields)
    (k : List Char → ParsedFields → Option ParsedFields) :
    parseStep .Y2 (cs ++ inp) acc k =
      k inp ⟨some (twoDigitYear (chunkVal cs)), acc.pm, acc.pd⟩ := by
  simp only [parseStep]
  rw [if_pos]
  · rw [show (cs ++ inp).drop 2 = inp from by rw [← hlen, List.drop_left],
      show (cs ++ inp).take 2 = cs from by rw [← hlen, List.take_left]]
  · constructor
    · simp only [List.length_append]
      omega
    · rw [show (cs ++ inp).take 2 = cs from by rw [← hlen, List.take_left]]
      exact hdig

theorem parseStep_m2 {cs : List Char} (hlen : cs.length = 2)
    (hdig : cs.all Char.isDigit = true) (inp : List Char)
    (acc : ParsedFields)
    (k : List Char → ParsedFields → Option ParsedFields) :
    parseStep .M2 (cs ++ inp) acc k =
      k inp ⟨acc.py, some (chunkVal cs), acc.pd⟩ := by
  simp only [parseStep]
  rw [if_pos]
  · rw [show (cs ++ inp).drop 2 = inp from by rw [← hlen, List.drop_left],
      show (cs ++ inp).take 2 = cs from by rw [← hlen, List.take_left]]
  · constructor
    · simp only [List.length_append]
      omega
    · rw [show (cs ++ inp).take 2 = cs from by rw [← hlen, List.take_left]]
      exact hdig

theorem parseStep_d2 {cs : List Char} (hlen : cs.length = 2)
    (hdig : cs.all Char.isDigit = true) (inp : List Char)
    (acc : ParsedFields)
    (k : List Char → ParsedFields → Option ParsedFields) :
    parseStep .D2 (cs ++ inp) acc k =
      k inp ⟨acc.py, acc.pm, some (chunkVal cs)⟩ := by
  simp only [parseStep]
  rw [if_pos]
  · rw [show (cs ++ inp).drop 2 = inp from by rw [← hlen, List.drop_left],
      show (cs ++ inp).take 2 = cs from by rw [← hlen, List.take_left]]
  · constructor
    · simp only [List.length_append]
      omega
    · rw [show (cs ++ inp).take 2 = cs from by rw [← hlen, List.take_left]]
      exact hdig

theorem parseStep_m1_two {cs : List Char} (hlen : cs.length = 2)
    (hdig : cs.all Char.isDigit = true) (inp : List Char)
    (acc : ParsedFields)
    (k : List Char → ParsedFields → Option ParsedFields) :
    parseStep .M1 (cs ++ inp) acc k =
      k inp ⟨acc.py, some (chunkVal cs), acc.pd⟩ := by
  simp only [parseStep]
  rw [if_pos]
  · rw [show (cs ++ inp).drop 2 = inp from by rw [← hlen, List.drop_left],
      show (cs ++ inp).take 2 = cs from by rw [← hlen, List.take_left]]
  · constructor
    · simp only [List.length_append]
      omega
    · rw [show (cs ++ inp).take 2 = cs from by rw [← hlen, List.take_left]]
      exact hdig

theorem parseStep_d1_two {cs : List Char} (hlen : cs.length = 2)
    (hdig : cs.all Char.isDigit = true) (inp : List Char)
    (acc : ParsedFields)
    (k : List Char → ParsedFields → Option ParsedFields) :
    parseStep .D1 (cs ++ inp) acc k =
      k inp ⟨acc.py, acc.pm, some (chunkVal cs)⟩ := by
  simp only [parseStep]
  rw [if_pos]
  · rw [show (cs ++ inp).drop 2 = inp from by rw [← hlen, List.drop_left],
      show (cs ++ inp).take 2 = cs from by rw [← hlen, List.take_left]]
  · constructor
    · simp only [List.length_append]
      omega
    · rw [show (cs ++ inp).take 2 = cs from by rw [← hlen, List.take_left]]
      exact hdig

theorem parseStep_m1_one {c : Char} (hc : c.isDigit = true)
    (inp : List Char)
    (hinp : ∀ c2, inp.head? = some c2 → c2.isDigit = false)
    (acc : ParsedFields)
    (k : List Char → ParsedFields → Option ParsedFields) :
    parseStep .M1 (c :: inp) acc k =
      k inp ⟨acc.py, some (chunkVal [c]), acc.pd⟩ := by
  simp only [parseStep]
  match inp, hinp with
  | [], _ =>
    rw [if_neg (by simp), if_pos (by simp [hc])]
    rfl
  | i :: r, hinp =>
    have hi : i.isDigit = false := hinp i rfl
    rw [if_neg (by
        intro hcond
        have h2 := hcond.2
        simp [hi] at h2),
      if_pos (by simp [hc])]
    rfl

theorem parseStep_d1_one {c : Char} (hc : c.isDigit = true)
    (inp : List Char)
    (hinp : ∀ c2, inp.head? = some c2 → c2.isDigit = false)
    (acc : ParsedFields)
    (k : List Char → ParsedFields → Option ParsedFields) :
    parseStep .D1 (c :: inp) acc k =
      k inp ⟨acc.py, acc.pm, some (chunkVal [c])⟩ := by
  simp only [parseStep]
  match inp, hinp with
  | [], _ =>
    rw [if_neg (by simp), if_pos (by simp [hc])]
    rfl
  | i :: r, hinp =>
    have hi : i.isDigit = false := hinp i rfl
    rw [if_neg (by
        intro hcond
        have h2 := hcond.2
        simp [hi] at h2),
      if_pos (by simp [hc])]
    rfl

theorem parseStep_lit (c : Char) (inp : List Char) (acc : ParsedFields)
    (k : List Char → ParsedFields → Option ParsedFields) :
    parseStep (.L c) (c :: inp) acc k = k inp acc := by
  simp [parseStep]

theorem parse_render (dt : CalendarDate) (hv : validDate dt) :
    ∀ s, sepOK (toks s) = true → (FmtTok.Y4 ∈ toks s → dt.y ≤ 9999) →
    ∀ acc, parseRun s (renderFmt dt s) acc =
      some (applyToks dt (toks s) acc) := by
  have hv2 := hv
  obtain ⟨hm1, hm2, hd1, hd2⟩ := hv2
  have hm100 : dt.m < 100 := by omega
  have hd100 : dt.d < 100 := by
    have h31 : daysInMonth dt.y dt.m ≤ 31 := by
      unfold daysInMonth
      split_ifs <;> omega
    omega
  refine fmtRec _ ?_ ?_
  · intro s h hsep hy acc
    rw [toks_none h, renderFmt_none h, parseRun_none h]
    rfl
  · intro s t r h ih hsep hy acc
    rw [toks_some h] at hsep hy ⊢
    rw [renderFmt_some h, parseRun_some h]
    have hsep2 := sepOK_tail hsep
    have hy2 : FmtTok.Y4 ∈ toks r → dt.y ≤ 9999 :=
      fun hm => hy (List.mem_cons_of_mem _ hm)
    have hrec := ih hsep2 hy2
    show _ = some (applyToks dt (toks r) (applyTok dt acc t))
    cases t with
    | Y4 =>
      have hylt : dt.y < 10 ^ 4 := by
        have h9 := hy (List.mem_cons_self _ _)
        norm_num
        omega
      rw [show renderTok dt FmtTok.Y4 = padNum 4 dt.y from rfl,
        parseStep_y4 (padNum_length hylt (by norm_num))
          (padNum_all_digits _ _) _ _ _,
        chunkVal_padNum, hrec]
      try rfl
    | Y2 =>
      have hylt : dt.y % 100 < 10 ^ 2 := by
        have := Nat.mod_lt dt.y (show 0 < 100 by omega)
        norm_num
        omega
      rw [show renderTok dt FmtTok.Y2 = padNum 2 (dt.y % 100) from rfl,
        parseStep_y2 (padNum_length hylt (by norm_num))
          (padNum_all_digits _ _) _ _ _,
        chunkVal_padNum, hrec]
      try rfl
    | M2 =>
      have hlt : dt.m < 10 ^ 2 := by norm_num; omega
      rw [show renderTok dt FmtTok.M2 = padNum 2 dt.m from rfl,
        parseStep_m2 (padNum_length hlt (by norm_num))
          (padNum_all_digits _ _) _ _ _,
        chunkVal_padNum, hrec]
      try rfl
    | D2 =>
      have hlt : dt.d < 10 ^ 2 := by norm_num; omega
      rw [show renderTok dt FmtTok.D2 = padNum 2 dt.d from rfl,
        parseStep_d2 (padNum_length hlt (by norm_num))
          (padNum_all_digits _ _) _ _ _,
        chunkVal_padNum, hrec]
      try rfl
    | M1 =>
      have hhead : ∀ c2, (renderFmt dt r).head? = some c2 →
          c2.isDigit = false := by
        rw [renderFmt_eq_rendersToks]
        exact rendersToks_head_not_digit dt
          (show isVarTok FmtTok.M1 = true from rfl) hsep
      rw [show renderTok dt FmtTok.M1 = natChars dt.m from rfl]
      rcases natChars_lt100 hm100 with hA | hB
      · rw [hA, List.singleton_append,
          parseStep_m1_one (digitChar_isDigit _) _ hhead _ _,
          show [digitChar dt.m] = natChars dt.m from hA.symm,
          chunkVal_natChars, hrec]
        try rfl
      · rw [hB, @parseStep_m1_two
            [digitChar (dt.m / 10), digitChar (dt.m % 10)] rfl
            (by simp [digitChar_isDigit]) (renderFmt dt r) acc (parseRun r),
          show [digitChar (dt.m / 10), digitChar (dt.m % 10)] =
            natChars dt.m from hB.symm,
          chunkVal_natChars, hrec]
        try rfl
    | D1 =>
      have hhead : ∀ c2, (renderFmt dt r).head? = some c2 →
          c2.isDigit = false := by
        rw [renderFmt_eq_rendersToks]
        exact rendersToks_head_not_digit dt
          (show isVarTok FmtTok.D1 = true from rfl) hsep
      rw [show renderTok dt FmtTok.D1 = natChars dt.d from rfl]
      rcases natChars_lt100 hd100 with hA | hB
      · rw [hA, List.singleton_append,
          parseStep_d1_one (digitChar_isDigit _) _ hhead _ _,
          show [digitChar dt.d] = natChars dt.d from hA.symm,
          chunkVal_natChars, hrec]
        try rfl
      · rw [hB, @parseStep_d1_two
            [digitChar (dt.d / 10), digitChar (dt.d % 10)] rfl
            (by simp [digitChar_isDigit]) (renderFmt dt r) acc (parseRun r),
          show [digitChar (dt.d / 10), digitChar (dt.d % 10)] =
            natChars dt.d from hB.symm,
          chunkVal_natChars, hrec]
        try rfl
    | L c =>
      rw [show renderTok dt (FmtTok.L c) = [c] from rfl,
        List.singleton_append, parseStep_lit, hrec]
      try rfl

theorem twoDigitYear_window {y : Nat} (h1 : 1969 ≤ y) (h2 : y ≤ 2068) :
    twoDigitYear (y % 100) = y := by
  unfold twoDigitYear
  split <;> omega

theorem applyToks_py (dt : CalendarDate) :
    ∀ (ts : List FmtTok) (acc : ParsedFields),
    (FmtTok.Y2 ∈ ts → twoDigitYear (dt.y % 100) = dt.y) →
    (applyToks dt ts acc).py =
      if ts.countP (fun t => isYTok t) = 0 then acc.py else some dt.y := by
  intro ts
  induction ts with
  | nil =>
    intro acc _
    rfl
  | cons t rest ih =>
    intro acc hY2
    have hY2r : FmtTok.Y2 ∈ rest → twoDigitYear (dt.y % 100) = dt.y :=
      fun hm => hY2 (List.mem_cons_of_mem _ hm)
    show (applyToks dt rest (applyTok dt acc t)).py = _
    rw [ih _ hY2r]
    cases t with
    | Y4 =>
      have hL : (if rest.countP (fun t => isYTok t) = 0 then
          (applyTok dt acc FmtTok.Y4).py else some dt.y) = some dt.y := by
        split <;> rfl
      rw [hL, if_neg (by simp [List.countP_cons, isYTok])]
    | Y2 =>
      have hval := hY2 (List.mem_cons_self _ _)
      have hL : (if rest.countP (fun t => isYTok t) = 0 then
          (applyTok dt acc FmtTok.Y2).py else some dt.y) = some dt.y := by
        split
        · show some (twoDigitYear (dt.y % 100)) = some dt.y
          rw [hval]
        · rfl
      rw [hL, if_neg (by simp [List.countP_cons, isYTok])]
    | M2 =>
      rw [show (FmtTok.M2 :: rest).countP (fun t => isYTok t) =
        rest.countP (fun t => isYTok t) from by simp [List.countP_cons, isYTok]]
      split <;> rfl
    | M1 =>
      rw [show (FmtTok.M1 :: rest).countP (fun t => isYTok t) =
        rest.countP (fun t => isYTok t) from by simp [List.countP_cons, isYTok]]
      split <;> rfl
    | D2 =>
      rw [show (FmtTok.D2 :: rest).countP (fun t => isYTok t) =
        rest.countP (fun t => isYTok t) from by simp [List.countP_cons, isYTok]]
      split <;> rfl
    | D1 =>
      rw [show (FmtTok.D1 :: rest).countP (fun t => isYTok t) =
        rest.countP (fun t => isYTok t) from by simp [List.countP_cons, isYTok]]
      split <;> rfl
    | L c =>
      rw [show (FmtTok.L c :: rest).countP (fun t => isYTok t) =
        rest.countP (fun t => isYTok t) from by simp [List.countP_cons, isYTok]]
      split <;> rfl

theorem applyToks_pm (dt : CalendarDate) :
    ∀ (ts : List FmtTok) (acc : ParsedFields),
    (applyToks dt ts acc).pm =
      if ts.countP (fun t => isMTok t) = 0 then acc.pm else some dt.m := by
  intro ts
  induction ts with
  | nil =>
    intro acc
    rfl
  | cons t rest ih =>
    intro acc
    show (applyToks dt rest (applyTok dt acc t)).pm = _
    rw [ih]
    cases t with
    | M2 =>
      have hL : (if rest.countP (fun t => isMTok t) = 0 then
          (applyTok dt acc FmtTok.M2).pm else some dt.m) = some dt.m := by
        split <;> rfl
      rw [hL, if_neg (by simp [List.countP_cons, isMTok])]
    | M1 =>
      have hL : (if rest.countP (fun t => isMTok t) = 0 then
          (applyTok dt acc FmtTok.M1).pm else some dt.m) = some dt.m := by
        split <;> rfl
      rw [hL, if_neg (by simp [List.countP_cons, isMTok])]
    | Y4 =>
      rw [show (FmtTok.Y4 :: rest).countP (fun t => isMTok t) =
        rest.countP (fun t => isMTok t) from by simp [List.countP_cons, isMTok]]
      split <;> rfl
    | Y2 =>
      rw [show (FmtTok.Y2 :: rest).countP (fun t => isMTok t) =
        rest.countP (fun t => isMTok t) from by simp [List.countP_cons, isMTok]]
      split <;> rfl
    | D2 =>
      rw [show (FmtTok.D2 :: rest).countP (fun t => isMTok t) =
        rest.countP (fun t => isMTok t) from by simp [List.countP_cons, isMTok]]
      split <;> rfl
    | D1 =>
      rw [show (FmtTok.D1 :: rest).countP (fun t => isMTok t) =
        rest.countP (fun t => isMTok t) from by simp [List.countP_cons, isMTok]]
      split <;> rfl
    | L c =>
      rw [show (FmtTok.L c :: rest).countP (fun t => isMTok t) =
        rest.countP (fun t => isMTok t) from by simp [List.countP_cons, isMTok]]
      split <;> rfl

theorem applyToks_pd (dt : CalendarDate) :
    ∀ (ts : List FmtTok) (acc : ParsedFields),
    (applyToks dt ts acc).pd =
      if ts.countP (fun t => isDTok t) = 0 then acc.pd else some dt.d := by
  intro ts
  induction ts with
  | nil =>
    intro acc
    rfl
  | cons t rest ih =>
    intro acc
    show (applyToks dt rest (applyTok dt acc t)).pd = _
    rw [ih]
    cases t with
    | D2 =>
      have hL : (if rest.countP (fun t => isDTok t) = 0 then
          (applyTok dt acc FmtTok.D2).pd else some dt.d) = some dt.d := by
        split <;> rfl
      rw [hL, if_neg (by simp [List.countP_cons, isDTok])]
    | D1 =>
      have hL : (if rest.countP (fun t => isDTok t) = 0 then
          (applyTok dt acc FmtTok.D1).pd else some dt.d) = some dt.d := by
        split <;> rfl
      rw [hL, if_neg (by simp [List.countP_cons, isDTok])]
    | Y4 =>
      rw [show (FmtTok.Y4 :: rest).countP (fun t => isDTok t) =
        rest.countP (fun t => isDTok t) from by simp [List.countP_cons, isDTok]]
      split <;> rfl
    | Y2 =>
      rw [show (FmtTok.Y2 :: rest).countP (fun t => isDTok t) =
        rest.countP (fun t => isDTok t) from by simp [List.countP_cons, isDTok]]
      split <;> rfl
    | M2 =>
      rw [show (FmtTok.M2 :: rest).countP (fun t => isDTok t) =
        rest.countP (fun t => isDTok t) from by simp [List.countP_cons, isDTok]]
      split <;> rfl
    | M1 =>
      rw [show (FmtTok.M1 :: rest).countP (fun t => isDTok t) =
        rest.countP (fun t => isDTok t) from by simp [List.countP_cons, isDTok]]
      split <;> rfl
    | L c =>
      rw [show (FmtTok.L c :: rest).countP (fun t => isDTok t) =
        rest.countP (fun t => isDTok t) from by simp [List.countP_cons, isDTok]]
      split <;> rfl

theorem searchFrom_of_match0 {pat s : List Char} {len : Nat}
    (h : matchItems pat s = some len) :
    searchFrom pat s = some (0, len) := by
  match s with
  | [] => simp [searchFrom, h]
  | c :: r => simp [searchFrom, h]

theorem render_matchItems (dt : CalendarDate) (hv : validDate dt)
    (fmt : List Char) (hsep : sepOK (toks fmt) = true)
    (hy4 : FmtTok.Y4 ∈ toks fmt → dt.y ≤ 9999) :
    matchItems (createDatePatternFromFormat fmt) (renderFmt dt fmt) =
      some (renderFmt dt fmt).length := by
  rw [compile_eq_patOfFmt]
  show matchPI (patParse (patOfFmt fmt)) (renderFmt dt fmt) = _
  rw [patParse_patOfFmt, renderFmt_eq_rendersToks]
  exact render_matchPI dt hv (toks fmt) hsep hy4

theorem strictParse_of_render (today dt : CalendarDate) (hv : validDate dt)
    (fmt : List Char) (hsep : sepOK (toks fmt) = true)
    (hy4 : FmtTok.Y4 ∈ toks fmt → dt.y ≤ 9999)
    (hY2cond : FmtTok.Y2 ∈ toks fmt → twoDigitYear (dt.y % 100) = dt.y)
    (hone2 : ((toks fmt).countP (fun t => isYTok t) = 1 ∧
      (toks fmt).countP (fun t => isMTok t) = 1) ∧
      (toks fmt).countP (fun t => isDTok t) = 1) :
    momentStrictParse today (renderFmt dt fmt) fmt = some dt := by
  show (match parseRun fmt (renderFmt dt fmt) ⟨none, none, none⟩ with
    | none => none
    | some f => overflowCheck (completeFields today f)) = some dt
  rw [parse_render dt hv fmt hsep hy4]
  dsimp only
  have h1 := applyToks_py dt (toks fmt) ⟨none, none, none⟩ hY2cond
  have h2 := applyToks_pm dt (toks fmt) ⟨none, none, none⟩
  have h3 := applyToks_pd dt (toks fmt) ⟨none, none, none⟩
  rw [hone2.1.1] at h1
  rw [hone2.1.2] at h2
  rw [hone2.2] at h3
  simp only [show ¬(1 = 0) from by omega, if_neg, if_false] at h1 h2 h3
  have hfields : applyToks dt (toks fmt) ⟨none, none, none⟩ =
      ⟨some dt.y, some dt.m, some dt.d⟩ := by
    cases hE : applyToks dt (toks fmt) ⟨none, none, none⟩ with
    | mk py pm pd =>
      rw [hE] at h1 h2 h3
      dsimp only at h1 h2 h3
      rw [h1, h2, h3]
  rw [hfields]
  show overflowCheck ⟨dt.y, dt.m, dt.d⟩ = some dt
  rw [show (⟨dt.y, dt.m, dt.d⟩ : CalendarDate) = dt from rfl]
  unfold overflowCheck
  rw [if_pos hv]

/-! ## Shape equivalence and fixed-width patterns -/

theorem shapeEqChar_refl (c : Char) : shapeEqChar c c = true := by
  simp [shapeEqChar]

theorem shapeEq_refl : ∀ l : List Char, shapeEq l l = true := by
  intro l
  induction l with
  | nil => rfl
  | cons c r ih =>
    simp only [shapeEq, Bool.and_eq_true]
    exact ⟨shapeEqChar_refl c, ih⟩

theorem shapeEq_append : ∀ {a1 a2 b1 b2 : List Char},
    shapeEq a1 a2 = true → shapeEq b1 b2 = true →
    shapeEq (a1 ++ b1) (a2 ++ b2) = true := by
  intro a1
  induction a1 with
  | nil =>
    intro a2 b1 b2 ha hb
    match a2, ha with
    | [], _ => simpa using hb
    | c :: r, ha => exact nomatch ha
  | cons c r ih =>
    intro a2 b1 b2 ha hb
    match a2, ha with
    | [], ha => exact nomatch ha
    | c2 :: r2, ha =>
      simp only [shapeEq, Bool.and_eq_true] at ha
      simp only [List.cons_append, shapeEq, Bool.and_eq_true]
      exact ⟨ha.1, ih ha.2 hb⟩

theorem shapeEq_length : ∀ {l1 l2 : List Char}, shapeEq l1 l2 = true →
    l1.length = l2.length := by
  intro l1
  induction l1 with
  | nil =>
    intro l2 h
    match l2, h with
    | [], _ => rfl
    | c :: r, h => exact nomatch h
  | cons c r ih =>
    intro l2 h
    match l2, h with
    | [], h => exact nomatch h
    | c2 :: r2, h =>
      simp only [shapeEq, Bool.and_eq_true] at h
      simp only [List.length_cons, ih h.2]

theorem shapeEq_take : ∀ (n : Nat) {l1 l2 : List Char},
    shapeEq l1 l2 = true → shapeEq (l1.take n) (l2.take n) = true := by
  intro n
  induction n with
  | zero =>
    intro l1 l2 h
    rfl
  | succ n ih =>
    intro l1 l2 h
    match l1, l2, h with
    | [], [], _ => rfl
    | [], c :: r, h => exact nomatch h
    | c :: r, [], h => exact nomatch h
    | c1 :: r1, c2 :: r2, h =>
      simp only [shapeEq, Bool.and_eq_true] at h
      simp only [List.take_succ_cons, shapeEq, Bool.and_eq_true]
      exact ⟨h.1, ih h.2⟩

theorem shapeEq_drop : ∀ (n : Nat) {l1 l2 : List Char},
    shapeEq l1 l2 = true → shapeEq (l1.drop n) (l2.drop n) = true := by
  intro n
  induction n with
  | zero =>
    intro l1 l2 h
    exact h
  | succ n ih =>
    intro l1 l2 h
    match l1, l2, h with
    | [], [], _ => rfl
    | [], c :: r, h => exact nomatch h
    | c :: r, [], h => exact nomatch h
    | c1 :: r1, c2 :: r2, h =>
      simp only [shapeEq, Bool.and_eq_true] at h
      simp only [List.drop_succ_cons]
      exact ih h.2

theorem shapeEq_all_digit : ∀ {l1 l2 : List Char}, shapeEq l1 l2 = true →
    l1.all Char.isDigit = l2.all Char.isDigit := by
  intro l1
  induction l1 with
  | nil =>
    intro l2 h
    match l2, h with
    | [], _ => rfl
    | c :: r, h => exact nomatch h
  | cons c r ih =>
    intro l2 h
    match l2, h with
    | [], h => exact nomatch h
    | c2 :: r2, h =>
      simp only [shapeEq, shapeEqChar, Bool.and_eq_true, beq_iff_eq] at h
      obtain ⟨⟨hd, _⟩, hr⟩ := h
      simp only [List.all_cons]
      rw [hd, ih hr]

theorem shapeEq_of_digits : ∀ {l1 l2 : List Char}, l1.length = l2.length →
    l1.all Char.isDigit = true → l2.all Char.isDigit = true →
    shapeEq l1 l2 = true := by
  intro l1
  induction l1 with
  | nil =>
    intro l2 hl _ _
    match l2, hl with
    | [], _ => rfl
  | cons c r ih =>
    intro l2 hl h1 h2
    match l2, hl with
    | c2 :: r2, hl =>
      simp only [List.all_cons, Bool.and_eq_true] at h1 h2
      simp only [shapeEq, shapeEqChar, Bool.and_eq_true, beq_iff_eq]
      refine ⟨⟨by rw [h1.1, h2.1], by rw [h1.1]; rfl⟩, ?_⟩
      exact ih (by simpa using hl) h1.2 h2.2

theorem matchPI_shapeEq : ∀ (ps : List PatItem), rigidItems ps = true →
    ∀ {inp1 inp2 : List Char}, shapeEq inp1 inp2 = true →
    matchPI ps inp1 = matchPI ps inp2 := by
  intro ps
  induction ps with
  | nil =>
    intro _ inp1 inp2 _
    rfl
  | cons i ps ih =>
    intro hr inp1 inp2 hs
    have hr2 := hr
    simp only [rigidItems, List.all_cons, Bool.and_eq_true] at hr2
    obtain ⟨hi, hrest⟩ := hr2
    have hri : rigidItems ps = true := hrest
    cases i with
    | D4 =>
      simp only [matchPI]
      rw [shapeEq_length hs, shapeEq_all_digit (shapeEq_take 4 hs),
        ih hri (shapeEq_drop 4 hs)]
    | D2 =>
      simp only [matchPI]
      rw [shapeEq_length hs, shapeEq_all_digit (shapeEq_take 2 hs),
        ih hri (shapeEq_drop 2 hs)]
    | D12 => exact nomatch hi
    | Lit c =>
      have hcd : c.isDigit = false := by simpa using hi
      match inp1, inp2, hs with
      | [], [], _ => rfl
      | [], c2 :: r2, hs => exact nomatch hs
      | c1 :: r1, [], hs => exact nomatch hs
      | c1 :: r1, c2 :: r2, hs =>
        simp only [shapeEq, shapeEqChar, Bool.and_eq_true, beq_iff_eq,
          Bool.or_eq_true] at hs
        obtain ⟨⟨hd, hor⟩, hr2⟩ := hs
        show (if c1 = c then (matchPI ps r1).map (· + 1) else none) =
          (if c2 = c then (matchPI ps r2).map (· + 1) else none)
        by_cases he : c1 = c
        · have h1d : c1.isDigit = false := by rw [he]; exact hcd
          have h12 : c1 = c2 := by
            rcases hor with h | h
            · rw [h1d] at h
              exact nomatch h
            · exact (by simpa using h)
          have he2 : c2 = c := h12 ▸ he
          rw [if_pos he, if_pos he2, ih hri hr2]
        · have hne2 : ¬(c2 = c) := by
            intro he2
            have h2d : c2.isDigit = false := by rw [he2]; exact hcd
            have h1d : c1.isDigit = false := by rw [hd]; exact h2d
            rcases hor with h | h
            · rw [h1d] at h
              exact nomatch h
            · exact he ((by simpa using h : c1 = c2).trans he2)
          rw [if_neg he, if_neg hne2]

theorem matchPI_len_le : ∀ (ps : List PatItem) (inp : List Char) {n : Nat},
    matchPI ps inp = some n → n ≤ inp.length := by
  intro ps
  induction ps with
  | nil =>
    intro inp n h
    cases h
    omega
  | cons i ps ih =>
    intro inp n h
    cases i with
    | D4 =>
      simp only [matchPI] at h
      split at h
      · rcases Option.map_eq_some'.mp h with ⟨m, hm, hn⟩
        have := ih _ hm
        simp only [List.length_drop] at this
        omega
      · exact nomatch h
    | D2 =>
      simp only [matchPI] at h
      split at h
      · rcases Option.map_eq_some'.mp h with ⟨m, hm, hn⟩
        have := ih _ hm
        simp only [List.length_drop] at this
        omega
      · exact nomatch h
    | D12 =>
      simp only [matchPI] at h
      cases hA : (if 2 ≤ inp.length ∧ (inp.take 2).all Char.isDigit then
          (matchPI ps (inp.drop 2)).map (· + 2) else none) with
      | some m =>
        rw [hA] at h
        have hm2 : m = n := Option.some.inj (show some m = some n from h)
        subst hm2
        split at hA
        · rcases Option.map_eq_some'.mp hA with ⟨m2, hm2, hn2⟩
          have := ih _ hm2
          simp only [List.length_drop] at this
          omega
        · exact nomatch hA
      | none =>
        rw [hA] at h
        have h2 : (if 1 ≤ inp.length ∧ (inp.take 1).all Char.isDigit then
            (matchPI ps (inp.drop 1)).map (· + 1) else none) = some n := h
        clear h
        split at h2
        · rcases Option.map_eq_some'.mp h2 with ⟨m, hm, hn⟩
          have := ih _ hm
          simp only [List.length_drop] at this
          omega
        · exact nomatch h2
    | Lit c =>
      match inp, h with
      | [], h => exact nomatch h
      | c1 :: r, h =>
        simp only [matchPI] at h
        split at h
        · rcases Option.map_eq_some'.mp h with ⟨m, hm, hn⟩
          have := ih _ hm
          simp only [List.length_cons]
          omega
        · exact nomatch h

theorem matchPI_take_shape : ∀ (ps : List PatItem), rigidItems ps = true →
    ∀ {inp1 inp2 : List Char} {n1 n2 : Nat},
    matchPI ps inp1 = some n1 → matchPI ps inp2 = some n2 →
    shapeEq (inp1.take n1) (inp2.take n2) = true := by
  intro ps
  induction ps with
  | nil =>
    intro _ inp1 inp2 n1 n2 h1 h2
    cases h1
    cases h2
    rfl
  | cons i ps ih =>
    intro hr inp1 inp2 n1 n2 h1 h2
    have hr2 := hr
    simp only [rigidItems, List.all_cons, Bool.and_eq_true] at hr2
    obtain ⟨hi, hrest⟩ := hr2
    have hri : rigidItems ps = true := hrest
    cases i with
    | D4 =>
      simp only [matchPI] at h1 h2
      split at h1
      case isFalse => exact nomatch h1
      case isTrue hc1 =>
      split at h2
      case isFalse => exact nomatch h2
      case isTrue hc2 =>
      rcases Option.map_eq_some'.mp h1 with ⟨m1, hm1, hn1⟩
      rcases Option.map_eq_some'.mp h2 with ⟨m2, hm2, hn2⟩
      rw [← hn1, ← hn2, show m1 + 4 = 4 + m1 from by omega,
        show m2 + 4 = 4 + m2 from by omega, List.take_add, List.take_add]
      refine shapeEq_append (shapeEq_of_digits ?_ hc1.2 hc2.2) (ih hri hm1 hm2)
      rw [List.length_take, List.length_take]
      omega
    | D2 =>
      simp only [matchPI] at h1 h2
      split at h1
      case isFalse => exact nomatch h1
      case isTrue hc1 =>
      split at h2
      case isFalse => exact nomatch h2
      case isTrue hc2 =>
      rcases Option.map_eq_some'.mp h1 with ⟨m1, hm1, hn1⟩
      rcases Option.map_eq_some'.mp h2 with ⟨m2, hm2, hn2⟩
      rw [← hn1, ← hn2, show m1 + 2 = 2 + m1 from by omega,
        show m2 + 2 = 2 + m2 from by omega, List.take_add, List.take_add]
      refine shapeEq_append (shapeEq_of_digits ?_ hc1.2 hc2.2) (ih hri hm1 hm2)
      rw [List.length_take, List.length_take]
      omega
    | D12 => exact nomatch hi
    | Lit c =>
      match inp1, h1 with
      | [], h1 => exact nomatch h1
      | c1 :: r1, h1 =>
        match inp2, h2 with
        | [], h2 => exact nomatch h2
        | c2 :: r2, h2 =>
          simp only [matchPI] at h1 h2
          split at h1
          case isFalse => exact nomatch h1
          case isTrue he1 =>
          split at h2
          case isFalse => exact nomatch h2
          case isTrue he2 =>
          rcases Option.map_eq_some'.mp h1 with ⟨m1, hm1, hn1⟩
          rcases Option.map_eq_some'.mp h2 with ⟨m2, hm2, hn2⟩
          rw [← hn1, ← hn2, List.take_succ_cons, List.take_succ_cons]
          simp only [shapeEq, Bool.and_eq_true]
          refine ⟨?_, ih hri hm1 hm2⟩
          rw [he1, he2]
          exact shapeEqChar_refl c

theorem searchFrom_shapeEq (pat : List Char)
    (hr : rigidItems (patParse pat) = true) :
    ∀ {s1 s2 : List Char}, shapeEq s1 s2 = true →
    searchFrom pat s1 = searchFrom pat s2 := by
  intro s1
  induction s1 with
  | nil =>
    intro s2 h
    match s2, h with
    | [], _ => rfl
    | c :: r, h => exact nomatch h
  | cons c1 r1 ih =>
    intro s2 h
    match s2, h with
    | [], h => exact nomatch h
    | c2 :: r2, h =>
      have hsplit : shapeEqChar c1 c2 = true ∧ shapeEq r1 r2 = true := by
        simpa [shapeEq] using h
      simp only [searchFrom]
      rw [show matchItems pat (c1 :: r1) = matchItems pat (c2 :: r2) from
        matchPI_shapeEq (patParse pat) hr h]
      cases hm : matchItems pat (c2 :: r2) with
      | some len => rfl
      | none =>
        dsimp only
        rw [ih hsplit.2]

theorem searchFrom_some_spec (pat : List Char) :
    ∀ (s : List Char) {stt len : Nat},
    searchFrom pat s = some (stt, len) →
    stt ≤ s.length ∧ matchItems pat (s.drop stt) = some len := by
  intro s
  induction s with
  | nil =>
    intro stt len h
    simp only [searchFrom] at h
    rcases Option.map_eq_some'.mp h with ⟨l2, hl2, he⟩
    injection he with he1 he2
    subst he1
    subst he2
    exact ⟨by omega, hl2⟩
  | cons c r ih =>
    intro stt len h
    simp only [searchFrom] at h
    cases hm : matchItems pat (c :: r) with
    | some l2 =>
      rw [hm] at h
      dsimp only at h
      injection h with h2
      injection h2 with he1 he2
      subst he1
      subst he2
      constructor
      · omega
      · simpa using hm
    | none =>
      rw [hm] at h
      dsimp only at h
      rcases Option.map_eq_some'.mp h with ⟨⟨st2, l2⟩, hq, he⟩
      injection he with he1 he2
      subst he1
      subst he2
      obtain ⟨ih1, ih2⟩ := ih hq
      constructor
      · simp only [List.length_cons]
        omega
      · exact ih2

theorem sepOK_of_no_var : ∀ ts : List FmtTok,
    ts.all (fun t => !(isVarTok t)) = true → sepOK ts = true := by
  intro ts
  induction ts with
  | nil =>
    intro _
    rfl
  | cons t rest ih =>
    intro h
    simp only [List.all_cons, Bool.and_eq_true] at h
    match rest, ih, h with
    | [], _, _ => rfl
    | u :: r2, ih, h =>
      simp only [sepOK, Bool.and_eq_true]
      constructor
      · rw [h.1]
        rfl
      · exact ih h.2

theorem rigidItems_of_toks : ∀ ts : List FmtTok, toksLitOK ts = true →
    ts.all (fun t => !(isVarTok t)) = true →
    rigidItems (itemsOfToks ts) = true := by
  intro ts
  induction ts with
  | nil =>
    intro _ _
    rfl
  | cons t rest ih =>
    intro hlit hnv
    simp only [toksLitOK, List.all_cons, Bool.and_eq_true] at hlit
    simp only [List.all_cons, Bool.and_eq_true] at hnv
    have hrest : rigidItems (itemsOfToks rest) = true := ih hlit.2 hnv.2
    show ((match itemOfTok t with
      | PatItem.D12 => false
      | PatItem.Lit c => !c.isDigit
      | _ => true) && rigidItems (itemsOfToks rest)) = true
    rw [hrest, Bool.and_true]
    cases t with
    | Y4 => rfl
    | Y2 => rfl
    | M2 => rfl
    | D2 => rfl
    | M1 => exact nomatch hnv.1
    | D1 => exact nomatch hnv.1
    | L c =>
      show (!c.isDigit) = true
      have hl := hlit.1
      simp only [litOK, Bool.and_eq_true] at hl
      exact hl.1.1.1

theorem not_mem_of_all_digits {l : List Char}
    (h : l.all Char.isDigit = true) : '$' ∉ l := by
  intro hm
  have := List.all_eq_true.mp h _ hm
  exact nomatch this

theorem rendersToks_no_dollar (dt : CalendarDate) : ∀ ts : List FmtTok,
    (ts.all fun t => match t with
      | FmtTok.L c => c ≠ '$'
      | _ => true) = true →
    '$' ∉ rendersToks dt ts := by
  intro ts
  induction ts with
  | nil =>
    intro _ hm
    exact (List.not_mem_nil _) hm
  | cons t rest ih =>
    intro h hm
    simp only [List.all_cons, Bool.and_eq_true] at h
    rcases List.mem_append.mp hm with hm1 | hm2
    · cases t with
      | Y4 => exact not_mem_of_all_digits (padNum_all_digits 4 dt.y) hm1
      | Y2 => exact not_mem_of_all_digits (padNum_all_digits 2 (dt.y % 100)) hm1
      | M2 => exact not_mem_of_all_digits (padNum_all_digits 2 dt.m) hm1
      | D2 => exact not_mem_of_all_digits (padNum_all_digits 2 dt.d) hm1
      | M1 => exact not_mem_of_all_digits (natChars_all_digits dt.m) hm1
      | D1 => exact not_mem_of_all_digits (natChars_all_digits dt.d) hm1
      | L c =>
        have hc : c ≠ '$' := by simpa using h.1
        have : '$' = c := by simpa [renderTok] using hm1
        exact hc this.symm
    · exact ih h.2 hm2

/-! ## Claim theorems -/

/-- C1: the spec requires both handlers to no-op while `dateProperty`
still holds the sentinel "DEFAULT", even when a frontmatter key literally
named "DEFAULT" exists.  The code instead uses the sentinel as a real key:
with default settings, a file whose frontmatter has key "DEFAULT" set to
"2024-11-30" gets its filename rewritten by the frontmatter-changed
handler, and the rename handler writes the extracted date under the
literal key "DEFAULT". -/
theorem c1_sentinel_treated_as_real_key :
    DEFAULT_SETTINGS.dateProperty = s2l "DEFAULT" ∧
    updateFilename DEFAULT_SETTINGS momentPermissiveModel
      [(s2l "DEFAULT", FmVal.str (s2l "2024-11-30"))]
      (s2l "Note 2023-01-01") = some (s2l "Note 2024-11-30") ∧
    updateFrontmatter DEFAULT_SETTINGS ⟨2025, 1, 1⟩ []
      (s2l "Daily 2025-01-02") =
      [(s2l "DEFAULT", FmVal.str (s2l "2025-01-02"))] := by decide

/-- C4: for every format string, the compiler (escape, then global token
substitution in the fixed order YYYY, YY, MM, M, DD, D) computes exactly
the longest-token-first structural compilation: 4- and 2-digit tokens
become exact-width digit matchers, 1-2 digit tokens become 1-or-2-digit
matchers, other characters stay (escaped) literals, and no anchors are
added.  Concretely, "YYYY-MM-DD" compiles to the pattern whose first
match in "2024-01-05" is the whole string (not "24-01-05"), and the
pattern also matches in the middle of a longer string (no anchors). -/
theorem c4_compiler_token_priority :
    (∀ f, createDatePatternFromFormat f = patOfFmt f) ∧
    createDatePatternFromFormat (s2l "YYYY-MM-DD") =
      d4pat ++ '-' :: d2pat ++ '-' :: d2pat ∧
    searchFrom (createDatePatternFromFormat (s2l "YYYY-MM-DD"))
      (s2l "2024-01-05") = some (0, 10) ∧
    searchFrom (createDatePatternFromFormat (s2l "YYYY-MM-DD"))
      (s2l "x2024-01-05y") = some (1, 10) :=
  ⟨compile_eq_patOfFmt, by decide, by decide, by decide⟩

/-- C5: the date extractor returns `none` exactly when the compiled
pattern matches nowhere in the filename or the first (and only the
first) matching substring fails the strict parse; both failure modes
yield `none` rather than an error.  Concretely: month 13 fails the
strict parse, and an invalid first match makes the extractor return
`none` even when a later substring would parse. -/
theorem c5_extract_none_iff :
    (∀ today fmt name, extractDateFromFilename today fmt name = none ↔
      (searchFrom (createDatePatternFromFormat fmt) name = none ∨
        ∃ stt len,
          searchFrom (createDatePatternFromFormat fmt) name =
            some (stt, len) ∧
          momentStrictParse today ((name.drop stt).take len) fmt = none)) ∧
    extractDateFromFilename ⟨2025, 1, 1⟩ (s2l "YYYY-MM-DD")
      (s2l "2024-13-05") = none ∧
    extractDateFromFilename ⟨2025, 1, 1⟩ (s2l "YYYY-MM-DD")
      (s2l "9999-99-99 2024-01-05") = none := by
  refine ⟨?_, by decide, by decide⟩
  intro today fmt name
  unfold extractDateFromFilename
  cases hs : searchFrom (createDatePatternFromFormat fmt) name with
  | none => simp [hs]
  | some p =>
    obtain ⟨a, b⟩ := p
    simp only [hs]
    constructor
    · intro hp
      exact Or.inr ⟨a, b, rfl, hp⟩
    · rintro (hn | ⟨stt, len, he, hp⟩)
      · exact absurd hn (by simp)
      · obtain ⟨rfl, rfl⟩ := Prod.mk.injEq .. ▸ Option.some.inj he
        exact hp

/-- C6: the date formatter returns an integer exactly when the rendered
output is (nonempty and) all digits, and otherwise returns the rendered
string unchanged; in particular "YYYYMMDD" on 2024-01-05 gives the
integer 20240105, not the string "20240105". -/
theorem c6_formatter_integer_iff :
    (∀ fmt dt, (∃ n, formatFrontmatterDate fmt dt = FmVal.num n) ↔
      (renderFmt dt fmt ≠ [] ∧ (renderFmt dt fmt).all Char.isDigit)) ∧
    (∀ fmt dt,
      formatFrontmatterDate fmt dt =
        FmVal.num (chunkVal (renderFmt dt fmt)) ∨
      formatFrontmatterDate fmt dt = FmVal.str (renderFmt dt fmt)) ∧
    formatFrontmatterDate (s2l "YYYYMMDD") ⟨2024, 1, 5⟩ =
      FmVal.num 20240105 ∧
    formatFrontmatterDate (s2l "YYYYMMDD") ⟨2024, 1, 5⟩ ≠
      FmVal.str (s2l "20240105") := by
  refine ⟨?_, ?_, by decide, by decide⟩
  · intro fmt dt
    unfold formatFrontmatterDate
    dsimp only
    by_cases h : renderFmt dt fmt ≠ [] ∧ (renderFmt dt fmt).all Char.isDigit
    · rw [if_pos h]
      exact ⟨fun _ => h, fun _ => ⟨(chunkVal (renderFmt dt fmt) : Int), rfl⟩⟩
    · rw [if_neg h]
      constructor
      · rintro ⟨n, hn⟩; simp at hn
      · intro hc; exact absurd hc h
  · intro fmt dt
    unfold formatFrontmatterDate
    dsimp only
    by_cases h : renderFmt dt fmt ≠ [] ∧ (renderFmt dt fmt).all Char.isDigit
    · left; rw [if_pos h]
    · right; rw [if_neg h]

/-- C7 counterexample: the claim promises that the first matched
substring is replaced by the replacement string for every replacement
string, but JavaScript's `String.replace` interprets `$&` in the
replacement: replacing the match "2024" with "$&x" yields "2024x", not
"$&x" as the claim requires. -/
theorem c7_dollar_replacement_cex :
    replaceDateInFilename (s2l "YYYY") (s2l "2024") (s2l "$&x") ≠
      s2l "$&x" ∧
    replaceDateInFilename (s2l "YYYY") (s2l "2024") (s2l "$&x") =
      s2l "2024x" := by decide

/-- C7 (amended): for every basename and every `$`-free replacement
string, the filename rewriter replaces exactly the first matched
substring with the replacement (leaving the suffix, and hence any later
matches, intact) and returns the input unchanged when the pattern
matches nowhere. -/
theorem c7_replace_first_match (fmt name repl : List Char)
    (hd : '$' ∉ repl) :
    (searchFrom (createDatePatternFromFormat fmt) name = none →
      replaceDateInFilename fmt name repl = name) ∧
    (∀ stt len,
      searchFrom (createDatePatternFromFormat fmt) name = some (stt, len) →
      replaceDateInFilename fmt name repl =
        name.take stt ++ repl ++ name.drop (stt + len)) :=
  ⟨fun hs => replaceDate_eq_of_no_match hs,
   fun _ _ hs => replaceDate_eq_of_search hd hs⟩

/-- C7 witness (Example 1 of the specification). -/
theorem c7_replace_first_match_witness :
    replaceDateInFilename (s2l "YYYY-MM-DD") (s2l "Meeting 2023-05-01 notes")
      (s2l "2024-11-30") = s2l "Meeting 2024-11-30 notes" := by
  have h := (c7_replace_first_match (s2l "YYYY-MM-DD")
    (s2l "Meeting 2023-05-01 notes") (s2l "2024-11-30") (by decide)).2
    8 10 (by decide)
  rw [h]; decide

/-- C8: after a successful extraction from the new basename, the rename
handler leaves the frontmatter mapping unchanged exactly when the stored
value already equals the new formatted value; otherwise it writes. -/
theorem c8_frontmatter_write_iff (st : Settings) (today : CalendarDate)
    (fm : Frontmatter) (name : List Char) (dt : CalendarDate)
    (h : extractDateFromFilename today st.dateFormat name = some dt) :
    updateFrontmatter st today fm name = fm ↔
      lookupFm fm st.dateProperty =
        some (formatFrontmatterDate st.dateFormat dt) := by
  unfold updateFrontmatter
  rw [h]
  dsimp only
  by_cases hl : lookupFm fm st.dateProperty =
      some (formatFrontmatterDate st.dateFormat dt)
  · rw [if_neg (by simpa using hl)]
    exact ⟨fun _ => hl, fun _ => rfl⟩
  · rw [if_pos hl]
    exact ⟨fun he => absurd he (setFm_changes hl), fun hc => absurd hc hl⟩

/-- C8 witness (Example 3 of the specification): renaming to
"Daily 2025-01-02" with property "date" previously "2024-11-30" does
write (the mapping changes). -/
theorem c8_frontmatter_write_iff_witness :
    updateFrontmatter ⟨s2l "date", s2l "YYYY-MM-DD"⟩ ⟨2025, 1, 1⟩
      [(s2l "date", FmVal.str (s2l "2024-11-30"))] (s2l "Daily 2025-01-02") ≠
      [(s2l "date", FmVal.str (s2l "2024-11-30"))] := by
  intro he
  have h := (c8_frontmatter_write_iff ⟨s2l "date", s2l "YYYY-MM-DD"⟩
    ⟨2025, 1, 1⟩ [(s2l "date", FmVal.str (s2l "2024-11-30"))]
    (s2l "Daily 2025-01-02") ⟨2025, 1, 2⟩ (by decide)).mp he
  exact absurd h (by decide)

/-- C9: when the rewriter leaves the basename unchanged (including the
no-match case), the frontmatter-changed handler requests no rename. -/
theorem c9_no_rename_when_unchanged (st : Settings)
    (mparse : FmVal → Option CalendarDate) (fm : Frontmatter)
    (name : List Char) (v : FmVal)
    (hv : lookupFm fm st.dateProperty = some v)
    (hn : replaceDateInFilename st.dateFormat name
        (formattedOf mparse st.dateFormat v) = name) :
    updateFilename st mparse fm name = none := by
  unfold updateFilename
  rw [hv]
  dsimp only
  by_cases ht : truthy v
  · simp [ht, hn]
  · simp [ht]

/-- C9 witness (Example 4 of the specification): a filename with no
date-like substring triggers no rename. -/
theorem c9_no_rename_when_unchanged_witness :
    updateFilename ⟨s2l "date", s2l "YYYY-MM-DD"⟩ momentPermissiveModel
      [(s2l "date", FmVal.str (s2l "2024-11-30"))] (s2l "Shopping list") =
      none :=
  c9_no_rename_when_unchanged ⟨s2l "date", s2l "YYYY-MM-DD"⟩
    momentPermissiveModel [(s2l "date", FmVal.str (s2l "2024-11-30"))]
    (s2l "Shopping list") (FmVal.str (s2l "2024-11-30")) (by decide)
    (by decide)

/-- C10: the frontmatter-changed handler tests the configured property
for JavaScript truthiness, so the number 0, the empty string, `false`
and `null` are all treated as absent: no rename happens. -/
theorem c10_falsy_values_no_rename (st : Settings)
    (mparse : FmVal → Option CalendarDate) (fm : Frontmatter)
    (name : List Char) (v : FmVal)
    (hv : lookupFm fm st.dateProperty = some v)
    (hfalsy : v = FmVal.num 0 ∨ v = FmVal.str [] ∨
      v = FmVal.boolean false ∨ v = FmVal.null) :
    updateFilename st mparse fm name = none := by
  have ht : truthy v = false := by
    rcases hfalsy with h | h | h | h <;> subst h <;> decide
  unfold updateFilename
  rw [hv]
  dsimp only
  simp [ht]

/-- C10 witness: a stored value of number 0 in a filename containing a
date pattern still causes no rename. -/
theorem c10_falsy_values_no_rename_witness :
    updateFilename ⟨s2l "date", s2l "YYYY-MM-DD"⟩ momentPermissiveModel
      [(s2l "date", FmVal.num 0)] (s2l "Meeting 2023-05-01") = none :=
  c10_falsy_values_no_rename ⟨s2l "date", s2l "YYYY-MM-DD"⟩
    momentPermissiveModel [(s2l "date", FmVal.num 0)]
    (s2l "Meeting 2023-05-01") (FmVal.num 0) (by decide) (Or.inl rfl)

/-- C2: the round-trip claim as stated is false.  For the format
"YYYY MD" and the valid date 2024-01-23 the Date Formatter renders
"2024 123" (not an all-digit rendering, so outside the claim's
integer-coercion hedge), but extraction parses the 1-2-digit month
token greedily and returns 2024-12-03 instead of the original date. -/
theorem c2_greedy_digits_cex :
    validDate ⟨2024, 1, 23⟩ ∧
    renderFmt ⟨2024, 1, 23⟩ (s2l "YYYY MD") = s2l "2024 123" ∧
    (s2l "2024 123").all Char.isDigit = false ∧
    extractDateFromFilename ⟨2025, 6, 15⟩ (s2l "YYYY MD") (s2l "2024 123") =
      some ⟨2024, 12, 3⟩ ∧
    extractDateFromFilename ⟨2025, 6, 15⟩ (s2l "YYYY MD")
      (renderFmt ⟨2024, 1, 23⟩ (s2l "YYYY MD")) ≠ some ⟨2024, 1, 23⟩ := by
  decide

/-- C2 (amended): for formats whose literal separators are non-digit,
non-alphabetic, non-bracket characters, in which no 1-2-digit token is
immediately followed by a digit-starting element, and which contain
exactly one year, one month and one day token, and for valid dates
whose year the format's year token can express, extracting from the
rendered string returns the original date. -/
theorem c2_round_trip (fmt : List Char) (today dt : CalendarDate)
    (hg : goodFmt fmt) (hv : validDate dt) (hy : yearOK (toks fmt) dt.y) :
    extractDateFromFilename today fmt (renderFmt dt fmt) = some dt := by
  obtain ⟨hlit, hsep, hone⟩ := hg
  obtain ⟨hy4, hy2w⟩ := hy
  have hone2 : ((toks fmt).countP (fun t => isYTok t) = 1 ∧
      (toks fmt).countP (fun t => isMTok t) = 1) ∧
      (toks fmt).countP (fun t => isDTok t) = 1 := by
    simpa [oneEach] using hone
  have hY2cond : FmtTok.Y2 ∈ toks fmt → twoDigitYear (dt.y % 100) = dt.y :=
    fun hm => twoDigitYear_window (hy2w hm).1 (hy2w hm).2
  show (match searchFrom (createDatePatternFromFormat fmt)
      (renderFmt dt fmt) with
    | some (st, len) =>
      momentStrictParse today (((renderFmt dt fmt).drop st).take len) fmt
    | none => none) = some dt
  rw [searchFrom_of_match0 (render_matchItems dt hv fmt hsep hy4)]
  dsimp only
  rw [List.drop_zero, List.take_length]
  exact strictParse_of_render today dt hv fmt hsep hy4 hY2cond hone2

theorem c2_round_trip_witness :
    goodFmt (s2l "YYYY-MM-DD") ∧ validDate ⟨2024, 1, 5⟩ ∧
    yearOK (toks (s2l "YYYY-MM-DD")) 2024 ∧
    extractDateFromFilename ⟨2025, 6, 15⟩ (s2l "YYYY-MM-DD")
      (renderFmt ⟨2024, 1, 5⟩ (s2l "YYYY-MM-DD")) = some ⟨2024, 1, 5⟩ :=
  ⟨by decide, by decide, by decide,
    c2_round_trip (s2l "YYYY-MM-DD") ⟨2025, 6, 15⟩ ⟨2024, 1, 5⟩ (by decide)
      (by decide) (by decide)⟩

/-- C3: the no-oscillation claim as stated is false.  With format
"YYYYMMDD", stored string value "2024-11-30" and basename
"Meeting 20230501", the frontmatter-changed handler renames the file to
"Meeting 20241130", and the rename handler then writes the integer
20241130 over the stored string - the frontmatter value changes after
the echoed rename (a string-to-number oscillation of the stored
value). -/
theorem c3_write_after_rename_cex :
    fmSyncRound ⟨s2l "date", s2l "YYYYMMDD"⟩ momentPermissiveModel
      ⟨2025, 1, 1⟩ [(s2l "date", FmVal.str (s2l "2024-11-30"))]
      (s2l "Meeting 20230501") = [(s2l "date", FmVal.num 20241130)] ∧
    [(s2l "date", FmVal.num 20241130)] ≠
      [(s2l "date", FmVal.str (s2l "2024-11-30"))] := by
  decide

/-- C3 (amended): for fixed-width formats (no 1-2-digit tokens, literal
separators admissible and not `$`, exactly one year, month and day
token), when the stored frontmatter value parses to a valid expressible
date and is already the canonical formatted value of that date, one
settled round - the frontmatter-changed handler, followed by the rename
handler on the renamed file - leaves the frontmatter unchanged. -/
theorem c3_no_oscillation (st : Settings)
    (mparse : FmVal → Option CalendarDate) (today d : CalendarDate)
    (fm : Frontmatter) (basename : List Char) (v : FmVal)
    (hr : rigidFmt st.dateFormat) (hv : validDate d)
    (hy : yearOK (toks st.dateFormat) d.y)
    (hlook : lookupFm fm st.dateProperty = some v)
    (hparse : mparse v = some d)
    (hcanon : v = formatFrontmatterDate st.dateFormat d) :
    fmSyncRound st mparse today fm basename = fm := by
  obtain ⟨hlit, hnovar, hone, hnd⟩ := hr
  obtain ⟨hy4, hy2w⟩ := hy
  have hsep : sepOK (toks st.dateFormat) = true :=
    sepOK_of_no_var _ hnovar
  have hone2 : ((toks st.dateFormat).countP (fun t => isYTok t) = 1 ∧
      (toks st.dateFormat).countP (fun t => isMTok t) = 1) ∧
      (toks st.dateFormat).countP (fun t => isDTok t) = 1 := by
    simpa [oneEach] using hone
  have hY2cond : FmtTok.Y2 ∈ toks st.dateFormat →
      twoDigitYear (d.y % 100) = d.y :=
    fun hm => twoDigitYear_window (hy2w hm).1 (hy2w hm).2
  have hrItems :
      rigidItems (patParse (createDatePatternFromFormat st.dateFormat)) =
        true := by
    rw [compile_eq_patOfFmt, patParse_patOfFmt]
    exact rigidItems_of_toks _ hlit hnovar
  have hdollar : '$' ∉ renderFmt d st.dateFormat := by
    rw [renderFmt_eq_rendersToks]
    exact rendersToks_no_dollar d _ hnd
  have hrm : matchItems (createDatePatternFromFormat st.dateFormat)
      (renderFmt d st.dateFormat) =
      some (renderFmt d st.dateFormat).length :=
    render_matchItems d hv st.dateFormat hsep hy4
  show (match updateFilename st mparse fm basename with
    | some newBase => updateFrontmatter st today fm newBase
    | none => fm) = fm
  by_cases htr : truthy v = true
  case neg =>
    have hupd : updateFilename st mparse fm basename = none := by
      show (match lookupFm fm st.dateProperty with
        | none => none
        | some v2 =>
          if truthy v2 then
            if replaceDateInFilename st.dateFormat basename
                (formattedOf mparse st.dateFormat v2) = basename then none
            else some (replaceDateInFilename st.dateFormat basename
              (formattedOf mparse st.dateFormat v2))
          else none) = none
      rw [hlook]
      dsimp only
      rw [if_neg htr]
    rw [hupd]
  case pos =>
    have hfmtd : formattedOf mparse st.dateFormat v =
        renderFmt d st.dateFormat := by
      unfold formattedOf
      rw [hparse]
    have hupd0 : updateFilename st mparse fm basename =
        (if replaceDateInFilename st.dateFormat basename
            (renderFmt d st.dateFormat) = basename then none
        else some (replaceDateInFilename st.dateFormat basename
          (renderFmt d st.dateFormat))) := by
      show (match lookupFm fm st.dateProperty with
        | none => none
        | some v2 =>
          if truthy v2 then
            if replaceDateInFilename st.dateFormat basename
                (formattedOf mparse st.dateFormat v2) = basename then none
            else some (replaceDateInFilename st.dateFormat basename
              (formattedOf mparse st.dateFormat v2))
          else none) = _
      rw [hlook]
      dsimp only
      rw [if_pos htr, hfmtd]
    by_cases heq : replaceDateInFilename st.dateFormat basename
        (renderFmt d st.dateFormat) = basename
    · rw [hupd0, if_pos heq]
    · rw [hupd0, if_neg heq]
      cases hsr : searchFrom (createDatePatternFromFormat st.dateFormat)
          basename with
      | none => exact absurd (replaceDate_eq_of_no_match hsr) heq
      | some q =>
        obtain ⟨st0, len⟩ := q
        obtain ⟨hst0, hmatch0⟩ := searchFrom_some_spec _ basename hsr
        have hrepl : replaceDateInFilename st.dateFormat basename
            (renderFmt d st.dateFormat) =
            basename.take st0 ++ renderFmt d st.dateFormat ++
              basename.drop (st0 + len) :=
          replaceDate_eq_of_search hdollar hsr
        have hdd : (basename.drop st0).drop len = basename.drop (st0 + len) := by
          rw [List.drop_drop]
        have hshape_sub := matchPI_take_shape
          (patParse (createDatePatternFromFormat st.dateFormat)) hrItems
          hmatch0 hrm
        rw [List.take_length] at hshape_sub
        have hlen_le := matchPI_len_le
          (patParse (createDatePatternFromFormat st.dateFormat)) _ hmatch0
        have hlen : len = (renderFmt d st.dateFormat).length := by
          have h1 := shapeEq_length hshape_sub
          rw [List.length_take] at h1
          omega
        have hdecomp : basename = basename.take st0 ++
            ((basename.drop st0).take len ++ (basename.drop st0).drop len) := by
          rw [List.take_append_drop, List.take_append_drop]
        have hshape_name : shapeEq basename (basename.take st0 ++
            (renderFmt d st.dateFormat ++ (basename.drop st0).drop len)) =
            true := by
          nth_rewrite 1 [hdecomp]
          exact shapeEq_append (shapeEq_refl _)
            (shapeEq_append hshape_sub (shapeEq_refl _))
        have hnn : basename.take st0 ++ renderFmt d st.dateFormat ++
            basename.drop (st0 + len) =
            basename.take st0 ++ (renderFmt d st.dateFormat ++
              (basename.drop st0).drop len) := by
          rw [List.append_assoc, hdd]
        have hsearch_new : searchFrom
            (createDatePatternFromFormat st.dateFormat)
            (basename.take st0 ++ (renderFmt d st.dateFormat ++
              (basename.drop st0).drop len)) = some (st0, len) := by
          rw [← searchFrom_shapeEq (createDatePatternFromFormat st.dateFormat)
            hrItems hshape_name]
          exact hsr
        have hlt : (basename.take st0).length = st0 := by
          rw [List.length_take]
          omega
        have hdropN : (basename.take st0 ++ (renderFmt d st.dateFormat ++
            (basename.drop st0).drop len)).drop st0 =
            renderFmt d st.dateFormat ++ (basename.drop st0).drop len :=
          List.drop_left' hlt
        have hextract : extractDateFromFilename today st.dateFormat
            (basename.take st0 ++ (renderFmt d st.dateFormat ++
              (basename.drop st0).drop len)) = some d := by
          show (match searchFrom (createDatePatternFromFormat st.dateFormat)
              (basename.take st0 ++ (renderFmt d st.dateFormat ++
                (basename.drop st0).drop len)) with
            | some (st1, len1) =>
              momentStrictParse today
                (((basename.take st0 ++ (renderFmt d st.dateFormat ++
                  (basename.drop st0).drop len)).drop st1).take len1)
                st.dateFormat
            | none => none) = some d
          rw [hsearch_new]
          dsimp only
          rw [hdropN, hlen, List.take_left]
          exact strictParse_of_render today d hv st.dateFormat hsep hy4
            hY2cond hone2
        rw [hrepl, hnn]
        show (match extractDateFromFilename today st.dateFormat
            (basename.take st0 ++ (renderFmt d st.dateFormat ++
              (basename.drop st0).drop len)) with
          | none => fm
          | some dt =>
            if lookupFm fm st.dateProperty ≠
                some (formatFrontmatterDate st.dateFormat dt) then
              setFm fm st.dateProperty (formatFrontmatterDate st.dateFormat dt)
            else fm) = fm
        rw [hextract]
        dsimp only
        rw [if_neg (fun hne => hne (by rw [hlook, hcanon]))]

theorem c3_no_oscillation_witness :
    rigidFmt (s2l "YYYYMMDD") ∧ validDate ⟨2024, 11, 30⟩ ∧
    yearOK (toks (s2l "YYYYMMDD")) 2024 ∧
    lookupFm [(s2l "date", FmVal.num 20241130)] (s2l "date") =
      some (FmVal.num 20241130) ∧
    FmVal.num 20241130 =
      formatFrontmatterDate (s2l "YYYYMMDD") ⟨2024, 11, 30⟩ ∧
    fmSyncRound ⟨s2l "date", s2l "YYYYMMDD"⟩
      (fun _ => some ⟨2024, 11, 30⟩) ⟨2025, 1, 1⟩
      [(s2l "date", FmVal.num 20241130)] (s2l "Meeting 20230501") =
      [(s2l "date", FmVal.num 20241130)] :=
  ⟨by decide, by decide, by decide, by decide, by decide,
    c3_no_oscillation ⟨s2l "date", s2l "YYYYMMDD"⟩
      (fun _ => some ⟨2024, 11, 30⟩) ⟨2025, 1, 1⟩ ⟨2024, 11, 30⟩
      [(s2l "date", FmVal.num 20241130)] (s2l "Meeting 20230501")
      (FmVal.num 20241130) (by decide) (by decide) (by decide) (by decide)
      rfl (by decide)⟩

end DateMirror
